import Mathlib

/-!
Verification of the ctxlog structured-logging record encoder.

The Go sources are embedded shallowly:
* Go strings are byte sequences, modelled as `List Nat` (each entry a byte).
* Go maps (`Fields`) are association lists `List (Bytes × Value)`; every
  iteration order of a map is covered by quantifying over all lists.
* The scope chain (`*mergedFields`, a nil-terminated parent-linked list)
  is modelled as `List FieldsL`, head = nearest scope, nil pointer = `[]`.
* `sort.Stable` is a stable sort w.r.t. `Less(i,j) = key i < key j`
  (byte-wise lexicographic); stable sorting is functionally unique, and we
  embed it as insertion sort, proving the stability property
  (`filterKey_insertionSort`) that pins this function down.
-/

set_option linter.unusedVariables false

namespace Ctxlog

abbrev Bytes := List Nat

/-- Byte-wise lexicographic strict order: Go's `<` on strings. -/
def bytesLt : Bytes → Bytes → Bool
  | [], [] => false
  | [], _ :: _ => true
  | _ :: _, [] => false
  | a :: as, b :: bs => if a < b then true else if b < a then false else bytesLt as bs

/-- Byte-wise lexicographic order: Go's `<=` on strings. -/
def bytesLe : Bytes → Bytes → Bool
  | [], _ => true
  | _ :: _, [] => false
  | a :: as, b :: bs => if a < b then true else if b < a then false else bytesLe as bs

theorem bytesLe_refl (x : Bytes) : bytesLe x x = true := by
  induction x with
  | nil => rfl
  | cons a as ih => simp [bytesLe, ih]

theorem bytesLe_total (x y : Bytes) : bytesLe x y = true ∨ bytesLe y x = true := by
  induction x generalizing y with
  | nil => exact Or.inl rfl
  | cons a as ih =>
    cases y with
    | nil => exact Or.inr rfl
    | cons b bs =>
      by_cases hab : a < b
      · exact Or.inl (by simp [bytesLe, hab])
      · by_cases hba : b < a
        · exact Or.inr (by simp [bytesLe, hba, Nat.lt_asymm hba])
        · have : a = b := Nat.le_antisymm (Nat.not_lt.mp hba) (Nat.not_lt.mp hab)
          subst this
          rcases ih bs with h | h
          · exact Or.inl (by simp [bytesLe, h])
          · exact Or.inr (by simp [bytesLe, h])

theorem bytesLe_trans {x y z : Bytes} (hxy : bytesLe x y = true)
    (hyz : bytesLe y z = true) : bytesLe x z = true := by
  induction x generalizing y z with
  | nil => rfl
  | cons a as ih =>
    cases y with
    | nil => simp [bytesLe] at hxy
    | cons b bs =>
      cases z with
      | nil => simp [bytesLe] at hyz
      | cons c cs =>
        simp only [bytesLe] at hxy hyz ⊢
        by_cases hab : a < b
        · have hac : a < c := by
            by_cases hbc : b < c
            · exact Nat.lt_trans hab hbc
            · by_cases hcb : c < b
              · simp [hbc, hcb] at hyz
              · have : b = c := Nat.le_antisymm (Nat.not_lt.mp hcb) (Nat.not_lt.mp hbc)
                omega
          simp [hac]
        · by_cases hba : b < a
          · simp [hab, hba] at hxy
          · have hab' : a = b := Nat.le_antisymm (Nat.not_lt.mp hba) (Nat.not_lt.mp hab)
            subst hab'
            simp only [hab, Nat.lt_irrefl, if_false] at hxy ⊢
            by_cases hac : a < c
            · simp [hac]
            · by_cases hca : c < a
              · simp [hac, hca] at hyz
              · have : a = c := Nat.le_antisymm (Nat.not_lt.mp hca) (Nat.not_lt.mp hac)
                subst this
                simp only [Nat.lt_irrefl, if_false] at hyz ⊢
                exact ih hxy hyz

theorem bytesLe_antisymm {x y : Bytes} (hxy : bytesLe x y = true)
    (hyx : bytesLe y x = true) : x = y := by
  induction x generalizing y with
  | nil =>
    cases y with
    | nil => rfl
    | cons b bs => simp [bytesLe] at hyx
  | cons a as ih =>
    cases y with
    | nil => simp [bytesLe] at hxy
    | cons b bs =>
      simp only [bytesLe] at hxy hyx
      by_cases hab : a < b
      · simp [hab, Nat.lt_asymm hab] at hyx
      · by_cases hba : b < a
        · simp [hab, hba] at hxy
        · have hab' : a = b := Nat.le_antisymm (Nat.not_lt.mp hba) (Nat.not_lt.mp hab)
          subst hab'
          simp only [Nat.lt_irrefl, if_false] at hxy hyx
          exact congrArg (a :: ·) (ih hxy hyx)

theorem bytesLt_iff_le_ne {x y : Bytes} :
    bytesLt x y = true ↔ (bytesLe x y = true ∧ x ≠ y) := by
  induction x generalizing y with
  | nil =>
    cases y with
    | nil => simp [bytesLt, bytesLe]
    | cons b bs => simp [bytesLt, bytesLe]
  | cons a as ih =>
    cases y with
    | nil => simp [bytesLt, bytesLe]
    | cons b bs =>
      simp only [bytesLt, bytesLe]
      by_cases hab : a < b
      · simp only [hab, if_true, true_iff, true_and]
        intro h
        injection h with h1 _
        omega
      · by_cases hba : b < a
        · simp [hab, hba]
        · have hab' : a = b := Nat.le_antisymm (Nat.not_lt.mp hba) (Nat.not_lt.mp hab)
          subst hab'
          simp only [Nat.lt_irrefl, if_false]
          rw [ih]
          constructor
          · rintro ⟨h1, h2⟩
            exact ⟨h1, by simpa using h2⟩
          · rintro ⟨h1, h2⟩
            exact ⟨h1, by intro h; exact h2 (by rw [h])⟩

/-- Order on key/value pairs used by `appendFields`' `sort.Stable`:
`keyValues.Less(i, j) = s[i].key < s[j].key`, embedded via its reflexive
closure for insertion sorting. -/
def leKV {α : Type} (a b : Bytes × α) : Prop := bytesLe a.1 b.1 = true

instance {α : Type} : DecidableRel (@leKV α) := fun a b =>
  inferInstanceAs (Decidable (_ = true))

instance {α : Type} : IsTotal (Bytes × α) leKV :=
  ⟨fun a b => bytesLe_total a.1 b.1⟩

instance {α : Type} : IsTrans (Bytes × α) leKV :=
  ⟨fun _ _ _ h1 h2 => bytesLe_trans h1 h2⟩

/-- Go `sort.Stable(keyValues(kv))`: the unique stable sort by key. -/
def sortKV {α : Type} (l : List (Bytes × α)) : List (Bytes × α) :=
  List.insertionSort leKV l

/-- The adjacent-duplicate skip in `appendFields`' emission loop:
`if i > 0 && kv[i-1].key == pair.key { continue }` — each element is
compared to its predecessor in the (sorted) array. -/
def dropDupAux {α : Type} : Bytes × α → List (Bytes × α) → List (Bytes × α)
  | _, [] => []
  | prev, y :: ys => if y.1 = prev.1 then dropDupAux y ys else y :: dropDupAux y ys

def dropDup {α : Type} : List (Bytes × α) → List (Bytes × α)
  | [] => []
  | x :: xs => x :: dropDupAux x xs

/-- One attribute set: a Go `Fields` map, as an association list. -/
abbrev FieldsOf (α : Type) := List (Bytes × α)

/-- The kv sequence collected by `appendFields`: the local set first, then
each chain node from nearest ancestor to root. -/
def collectKVs {α : Type} (fields : FieldsOf α) (chain : List (FieldsOf α)) :
    List (Bytes × α) :=
  fields ++ chain.flatten

/-- The merged field sequence `appendFields` iterates over after
`sort.Stable` and the adjacent-duplicate skip. -/
def mergedKVs {α : Type} (fields : FieldsOf α) (chain : List (FieldsOf α)) :
    List (Bytes × α) :=
  dropDup (sortKV (collectKVs fields chain))

/-- First value bound to key `k` in an association list (a Go map lookup,
  for lists with unique keys; first-wins on general lists). -/
def lookupKey {α : Type} (k : Bytes) : List (Bytes × α) → Option α
  | [] => none
  | p :: ps => if p.1 = k then some p.2 else lookupKey k ps

/-- Spec-side lookup along the scope chain, nearest scope first. -/
def chainLookup {α : Type} (k : Bytes) : List (FieldsOf α) → Option α
  | [] => none
  | f :: fs => match lookupKey k f with
    | some v => some v
    | none => chainLookup k fs

/-- Spec-side "value from the shallowest origin": the local set beats the
nearest ancestor, which beats further ancestors. -/
def shallowLookup {α : Type} (k : Bytes) (fields : FieldsOf α)
    (chain : List (FieldsOf α)) : Option α :=
  match lookupKey k fields with
  | some v => some v
  | none => chainLookup k chain

/-- Strict key order on pairs (distinct sorted keys). -/
def ltKV {α : Type} (a b : Bytes × α) : Prop := bytesLt a.1 b.1 = true

theorem bytesLt_trans {x y z : Bytes} (hxy : bytesLt x y = true)
    (hyz : bytesLt y z = true) : bytesLt x z = true := by
  rw [bytesLt_iff_le_ne] at hxy hyz ⊢
  refine ⟨bytesLe_trans hxy.1 hyz.1, ?_⟩
  intro h
  subst h
  exact hyz.2 (bytesLe_antisymm hyz.1 hxy.1)

theorem bytesLt_of_le_ne {x y : Bytes} (h1 : bytesLe x y = true) (h2 : x ≠ y) :
    bytesLt x y = true :=
  bytesLt_iff_le_ne.mpr ⟨h1, h2⟩

/-- Elements with a fixed key, in order. -/
def filterKey {α : Type} (k : Bytes) (l : List (Bytes × α)) : List (Bytes × α) :=
  l.filter (fun p => decide (p.1 = k))

theorem filterKey_orderedInsert {α : Type} (k : Bytes) (x : Bytes × α)
    (l : List (Bytes × α)) :
    filterKey k (List.orderedInsert leKV x l) =
      if x.1 = k then x :: filterKey k l else filterKey k l := by
  induction l with
  | nil =>
    by_cases h : x.1 = k <;> simp [filterKey, List.orderedInsert, h]
  | cons y ys ih =>
    by_cases hle : leKV x y
    · by_cases h : x.1 = k <;>
        simp [filterKey, List.orderedInsert, hle, h] at ih ⊢
    · have hne : y.1 ≠ x.1 := by
        intro he
        exact hle (by simp [leKV, he, bytesLe_refl])
      by_cases hy : y.1 = k
      · have hx : ¬ x.1 = k := fun hxk => hne (by rw [hy, hxk])
        simp [filterKey, List.orderedInsert, hle, hy, hx] at ih ⊢
        exact ih
      · by_cases h : x.1 = k <;>
          simp [filterKey, List.orderedInsert, hle, hy, h] at ih ⊢ <;>
          exact ih

theorem filterKey_sortKV {α : Type} (k : Bytes) (l : List (Bytes × α)) :
    filterKey k (sortKV l) = filterKey k l := by
  induction l with
  | nil => rfl
  | cons x xs ih =>
    show filterKey k (List.orderedInsert leKV x (sortKV xs)) = _
    rw [filterKey_orderedInsert]
    by_cases h : x.1 = k <;> simp [filterKey, h, ih] at ih ⊢ <;> simp [ih]

theorem lookupKey_eq_head_filterKey {α : Type} (k : Bytes) (l : List (Bytes × α)) :
    lookupKey k l = (filterKey k l).head?.map Prod.snd := by
  induction l with
  | nil => rfl
  | cons p ps ih =>
    by_cases h : p.1 = k <;> simp [lookupKey, filterKey, h] at ih ⊢ <;> exact ih

theorem lookupKey_sortKV {α : Type} (k : Bytes) (l : List (Bytes × α)) :
    lookupKey k (sortKV l) = lookupKey k l := by
  rw [lookupKey_eq_head_filterKey, lookupKey_eq_head_filterKey, filterKey_sortKV]

theorem lookupKey_none_of_forall_lt {α : Type} {k : Bytes} {l : List (Bytes × α)}
    (h : ∀ p ∈ l, bytesLt k p.1 = true) : lookupKey k l = none := by
  induction l with
  | nil => rfl
  | cons p ps ih =>
    have hp := h p (List.mem_cons_self p ps)
    have hne : p.1 ≠ k := by
      intro he
      rw [he] at hp
      exact (bytesLt_iff_le_ne.mp hp).2 rfl
    simp only [lookupKey, hne, if_false]
    exact ih (fun q hq => h q (List.mem_cons_of_mem p hq))

theorem dropDupAux_pairwise {α : Type} (prev : Bytes × α) (l : List (Bytes × α))
    (h : List.Pairwise leKV (prev :: l)) :
    (∀ q ∈ dropDupAux prev l, ltKV prev q) ∧
      List.Pairwise ltKV (dropDupAux prev l) := by
  induction l generalizing prev with
  | nil =>
    constructor
    · intro q hq
      simp [dropDupAux] at hq
    · exact List.Pairwise.nil
  | cons y ys ih =>
    rw [List.pairwise_cons] at h
    obtain ⟨hall, htail⟩ := h
    have hpy : leKV prev y := hall y (List.mem_cons_self y ys)
    by_cases hk : y.1 = prev.1
    · have := ih y htail
      simp only [dropDupAux, hk, if_true]
      refine ⟨fun q hq => ?_, this.2⟩
      have := this.1 q hq
      simpa [ltKV, hk] using this
    · have hlt : ltKV prev y := bytesLt_of_le_ne hpy (fun he => hk he.symm)
      have := ih y htail
      simp only [dropDupAux, hk, if_false]
      constructor
      · intro q hq
        rcases List.mem_cons.mp hq with hq | hq
        · exact hq ▸ hlt
        · exact bytesLt_trans hlt (this.1 q hq)
      · exact List.pairwise_cons.mpr ⟨this.1, this.2⟩

theorem dropDupAux_lookup {α : Type} (prev : Bytes × α) (l : List (Bytes × α))
    (h : List.Pairwise leKV (prev :: l)) (k : Bytes) :
    lookupKey k (dropDupAux prev l) =
      if k = prev.1 then none else lookupKey k l := by
  induction l generalizing prev with
  | nil => by_cases hk : k = prev.1 <;> simp [dropDupAux, lookupKey, hk]
  | cons y ys ih =>
    rw [List.pairwise_cons] at h
    obtain ⟨hall, htail⟩ := h
    have hpy : leKV prev y := hall y (List.mem_cons_self y ys)
    by_cases hy : y.1 = prev.1
    · simp only [dropDupAux, hy, if_true]
      rw [ih y htail]
      by_cases hk : k = prev.1
      · simp [hk, hy]
      · have hk' : ¬ k = y.1 := fun he => hk (he.trans hy)
        have hy' : ¬ y.1 = k := fun he => hk' he.symm
        simp [hk, hk', lookupKey, hy']
    · have hlt : ltKV prev y := bytesLt_of_le_ne hpy (fun he => hy he.symm)
      simp only [dropDupAux, hy, if_false]
      by_cases hk : k = prev.1
      · rw [if_pos hk]
        have hy' : ¬ y.1 = k := fun he => hy (he.trans hk)
        simp only [lookupKey, hy', if_false]
        rw [ih y htail]
        have hk2 : ¬ k = y.1 := fun he => hy' (he.symm)
        simp only [hk2, if_false]
        apply lookupKey_none_of_forall_lt
        intro p hp
        have hyp : leKV y p := (List.pairwise_cons.mp htail).1 p hp
        rw [hk]
        exact bytesLt_of_le_ne (bytesLe_trans (bytesLt_iff_le_ne.mp hlt).1 hyp)
          (by
            intro he
            have h3 : bytesLe y.1 prev.1 = true := by rw [he]; exact hyp
            exact hy (bytesLe_antisymm h3 hpy))
      · simp only [hk, if_false]
        by_cases hyk : y.1 = k
        · simp [lookupKey, hyk]
        · simp only [lookupKey, hyk, if_false]
          rw [ih y htail]
          have : ¬ k = y.1 := fun he => hyk he.symm
          simp [this]

theorem mergedKVs_pairwise {α : Type} (fields : FieldsOf α)
    (chain : List (FieldsOf α)) :
    List.Pairwise ltKV (mergedKVs fields chain) := by
  have hs : List.Pairwise leKV (sortKV (collectKVs fields chain)) :=
    List.sorted_insertionSort leKV _
  unfold mergedKVs
  cases hsort : sortKV (collectKVs fields chain) with
  | nil => exact List.Pairwise.nil
  | cons x xs =>
    rw [hsort] at hs
    have := dropDupAux_pairwise x xs hs
    exact List.pairwise_cons.mpr ⟨this.1, this.2⟩

theorem mergedKVs_lookup {α : Type} (fields : FieldsOf α)
    (chain : List (FieldsOf α)) (k : Bytes) :
    lookupKey k (mergedKVs fields chain) = lookupKey k (collectKVs fields chain) := by
  have hs : List.Pairwise leKV (sortKV (collectKVs fields chain)) :=
    List.sorted_insertionSort leKV _
  unfold mergedKVs
  rw [← lookupKey_sortKV k (collectKVs fields chain)]
  cases hsort : sortKV (collectKVs fields chain) with
  | nil => rfl
  | cons x xs =>
    rw [hsort] at hs
    show lookupKey k (x :: dropDupAux x xs) = lookupKey k (x :: xs)
    by_cases hx : x.1 = k
    · simp [lookupKey, hx]
    · simp only [lookupKey, hx, if_false]
      rw [dropDupAux_lookup x xs hs k]
      have : ¬ k = x.1 := fun he => hx he.symm
      simp [this]

theorem lookupKey_append {α : Type} (k : Bytes) (a b : List (Bytes × α)) :
    lookupKey k (a ++ b) = match lookupKey k a with
      | some v => some v
      | none => lookupKey k b := by
  induction a with
  | nil => simp [lookupKey]
  | cons p ps ih =>
    by_cases h : p.1 = k <;> simp [lookupKey, h, ih]

theorem shallowLookup_eq_collect {α : Type} (k : Bytes) (fields : FieldsOf α)
    (chain : List (FieldsOf α)) :
    shallowLookup k fields chain = lookupKey k (collectKVs fields chain) := by
  unfold shallowLookup collectKVs
  rw [lookupKey_append]
  cases lookupKey k fields with
  | some v => rfl
  | none =>
    induction chain with
    | nil => rfl
    | cons f fs ih =>
      simp only [List.flatten, chainLookup]
      rw [lookupKey_append]
      cases lookupKey k f with
      | some v => rfl
      | none => exact ih

/-- C1: for every local attribute set and every scope chain, the merged
field sequence produced during encoding has strictly sorted (hence
pairwise-distinct) keys, and looking up any key in it yields exactly the
value from the shallowest origin (local set, then nearest ancestor, then
further ancestors); in particular it contains exactly one entry per
distinct key appearing in the local set or any chain node. -/
theorem c1_merged_fields_spec {α : Type} (fields : FieldsOf α)
    (chain : List (FieldsOf α)) :
    List.Pairwise ltKV (mergedKVs fields chain) ∧
      ∀ k, lookupKey k (mergedKVs fields chain) = shallowLookup k fields chain := by
  refine ⟨mergedKVs_pairwise fields chain, fun k => ?_⟩
  rw [mergedKVs_lookup, shallowLookup_eq_collect]

/-! ## UTF-8 decoding (Go `range` over a string) and string escaping -/

/-- Lowercase hex digit byte: `"0123456789abcdef"[n]`. -/
def hexDigit (n : Nat) : Nat := if n < 10 then 48 + n else 87 + n

/-- UTF-8 encoding of a valid Unicode scalar value (Go `WriteRune`). -/
def encodeUTF8 (c : Nat) : Bytes :=
  if c < 0x80 then [c]
  else if c < 0x800 then [0xC0 + c / 64, 0x80 + c % 64]
  else if c < 0x10000 then [0xE0 + c / 4096, 0x80 + c / 64 % 64, 0x80 + c % 64]
  else [0xF0 + c / 262144, 0x80 + c / 4096 % 64, 0x80 + c / 64 % 64, 0x80 + c % 64]

def rune2 (b0 b1 : Nat) : Nat := b0 % 32 * 64 + b1 % 64

def rune3 (b0 b1 b2 : Nat) : Nat := b0 % 16 * 4096 + b1 % 64 * 64 + b2 % 64

def rune4 (b0 b1 b2 b3 : Nat) : Nat :=
  b0 % 8 * 262144 + b1 % 64 * 4096 + b2 % 64 * 64 + b3 % 64

/-- Go's second-byte accept range for a three-byte sequence
(`utf8.first` table: E0 → A0..BF, ED → 80..9F, otherwise 80..BF). -/
def snd3ok (b0 b1 : Nat) : Bool :=
  decide ((b0 = 0xE0 ∧ 0xA0 ≤ b1 ∧ b1 ≤ 0xBF) ∨
    (b0 = 0xED ∧ 0x80 ≤ b1 ∧ b1 ≤ 0x9F) ∨
    (b0 ≠ 0xE0 ∧ b0 ≠ 0xED ∧ 0x80 ≤ b1 ∧ b1 ≤ 0xBF))

/-- Go's second-byte accept range for a four-byte sequence
(F0 → 90..BF, F4 → 80..8F, otherwise 80..BF). -/
def snd4ok (b0 b1 : Nat) : Bool :=
  decide ((b0 = 0xF0 ∧ 0x90 ≤ b1 ∧ b1 ≤ 0xBF) ∨
    (b0 = 0xF4 ∧ 0x80 ≤ b1 ∧ b1 ≤ 0x8F) ∨
    (b0 ≠ 0xF0 ∧ b0 ≠ 0xF4 ∧ 0x80 ≤ b1 ∧ b1 ≤ 0xBF))

def isCont (b : Nat) : Bool := 0x80 ≤ b && b ≤ 0xBF

/-- The rune sequence produced by Go's `for _, c := range v` over a byte
string: UTF-8 decoding with the `utf8` package's accept ranges; every
malformed byte yields U+FFFD and advances one byte.  Fuelled for
structural recursion; fuel is an upper bound on the bytes consumed and
`decodeGo` supplies the list length. -/
def decodeGoF : Nat → Bytes → List Nat
  | 0, _ => []
  | _, [] => []
  | fuel + 1, b0 :: rest =>
    if b0 < 0x80 then b0 :: decodeGoF fuel rest
    else if b0 < 0xC2 || 0xF4 < b0 then 0xFFFD :: decodeGoF fuel rest
    else if b0 ≤ 0xDF then
      match rest with
      | b1 :: rest1 =>
        if isCont b1 then rune2 b0 b1 :: decodeGoF fuel rest1
        else 0xFFFD :: decodeGoF fuel rest
      | [] => 0xFFFD :: decodeGoF fuel rest
    else if b0 ≤ 0xEF then
      match rest with
      | b1 :: b2 :: rest2 =>
        if snd3ok b0 b1 && isCont b2 then rune3 b0 b1 b2 :: decodeGoF fuel rest2
        else 0xFFFD :: decodeGoF fuel rest
      | _ => 0xFFFD :: decodeGoF fuel rest
    else
      match rest with
      | b1 :: b2 :: b3 :: rest3 =>
        if snd4ok b0 b1 && isCont b2 && isCont b3 then
          rune4 b0 b1 b2 b3 :: decodeGoF fuel rest3
        else 0xFFFD :: decodeGoF fuel rest
      | _ => 0xFFFD :: decodeGoF fuel rest

def decodeGo (bs : Bytes) : List Nat := decodeGoF bs.length bs

/-- A Unicode scalar value (not a surrogate, within range). -/
def isValidScalar (c : Nat) : Bool := c < 0xD800 || (0xDFFF < c && c < 0x110000)

/-- Spec-side UTF-8 decoder: a prefix is consumed verbatim exactly when it
is the canonical encoding of a Unicode scalar value (checked by
re-encoding); otherwise one byte is replaced by the Unicode replacement
character U+FFFD.  Fuelled like `decodeGoF`. -/
def specDecodeF : Nat → Bytes → List Nat
  | 0, _ => []
  | _, [] => []
  | fuel + 1, b0 :: rest =>
    if b0 < 0x80 then b0 :: specDecodeF fuel rest
    else
      match rest with
      | b1 :: rest1 =>
        if encodeUTF8 (rune2 b0 b1) = [b0, b1] ∧ isValidScalar (rune2 b0 b1) = true then
          rune2 b0 b1 :: specDecodeF fuel rest1
        else
          match rest1 with
          | b2 :: rest2 =>
            if encodeUTF8 (rune3 b0 b1 b2) = [b0, b1, b2] ∧
                isValidScalar (rune3 b0 b1 b2) = true then
              rune3 b0 b1 b2 :: specDecodeF fuel rest2
            else
              match rest2 with
              | b3 :: rest3 =>
                if encodeUTF8 (rune4 b0 b1 b2 b3) = [b0, b1, b2, b3] ∧
                    isValidScalar (rune4 b0 b1 b2 b3) = true then
                  rune4 b0 b1 b2 b3 :: specDecodeF fuel rest3
                else 0xFFFD :: specDecodeF fuel rest
              | [] => 0xFFFD :: specDecodeF fuel rest
          | [] => 0xFFFD :: specDecodeF fuel rest
      | [] => 0xFFFD :: specDecodeF fuel rest

def specDecode (bs : Bytes) : List Nat := specDecodeF bs.length bs

/-- The per-rune escaping switch of `encodeState.appendRawString`. -/
def escapeRune (c : Nat) : Bytes :=
  if c = 0x5C then [0x5C, 0x5C]
  else if c = 0x22 then [0x5C, 0x22]
  else if c = 0x0A then [0x5C, 0x6E]
  else if c = 0x0D then [0x5C, 0x72]
  else if c = 0x09 then [0x5C, 0x74]
  else if c = 0x3C then [0x5C, 0x75, 0x30, 0x30, 0x33, 0x63]
  else if c = 0x3E then [0x5C, 0x75, 0x30, 0x30, 0x33, 0x65]
  else if c = 0x26 then [0x5C, 0x75, 0x30, 0x30, 0x32, 0x36]
  else if c = 0x7F then [0x5C, 0x75, 0x30, 0x30, 0x37, 0x66]
  else if c = 0x2028 then [0x5C, 0x75, 0x32, 0x30, 0x32, 0x38]
  else if c = 0x2029 then [0x5C, 0x75, 0x32, 0x30, 0x32, 0x39]
  else if c < 0x20 then [0x5C, 0x75, 0x30, 0x30, hexDigit (c / 16 % 16), hexDigit (c % 16)]
  else encodeUTF8 c

/-- `encodeState.appendRawString`: Go ranges over the string (UTF-8
decoding with replacement) and escapes each rune via the switch. -/
def appendRawString (v : Bytes) : Bytes := (decodeGo v).flatMap escapeRune

/-- `encodeState.appendString`: the quoted form. -/
def appendString (v : Bytes) : Bytes := 0x22 :: (appendRawString v ++ [0x22])

/-- Spec-side escape table, written from the specification's enumeration:
backslash, quote, newline, carriage return, tab, all other control
characters below 0x20 as lowercase `\u00XX`, `<`, `>`, `&`, DEL,
U+2028, U+2029; every other character copied through verbatim. -/
def specEscapeChar (c : Nat) : Bytes :=
  if c = 0x5C then [0x5C, 0x5C]
  else if c = 0x22 then [0x5C, 0x22]
  else if c = 0x0A then [0x5C, 0x6E]
  else if c = 0x0D then [0x5C, 0x72]
  else if c = 0x09 then [0x5C, 0x74]
  else if c < 0x20 then [0x5C, 0x75, 0x30, 0x30, hexDigit (c / 16), hexDigit (c % 16)]
  else if c = 0x3C then [0x5C, 0x75, 0x30, 0x30, 0x33, 0x63]
  else if c = 0x3E then [0x5C, 0x75, 0x30, 0x30, 0x33, 0x65]
  else if c = 0x26 then [0x5C, 0x75, 0x30, 0x30, 0x32, 0x36]
  else if c = 0x7F then [0x5C, 0x75, 0x30, 0x30, 0x37, 0x66]
  else if c = 0x2028 then [0x5C, 0x75, 0x32, 0x30, 0x32, 0x38]
  else if c = 0x2029 then [0x5C, 0x75, 0x32, 0x30, 0x32, 0x39]
  else encodeUTF8 c

theorem escapeRune_eq_spec (c : Nat) : escapeRune c = specEscapeChar c := by
  by_cases h1 : c = 0x5C
  · simp [escapeRune, specEscapeChar, h1]
  by_cases h2 : c = 0x22
  · simp [escapeRune, specEscapeChar, h1, h2]
  by_cases h3 : c = 0x0A
  · simp [escapeRune, specEscapeChar, h1, h2, h3]
  by_cases h4 : c = 0x0D
  · simp [escapeRune, specEscapeChar, h1, h2, h3, h4]
  by_cases h5 : c = 0x09
  · simp [escapeRune, specEscapeChar, h1, h2, h3, h4, h5]
  by_cases hlt : c < 0x20
  · have e1 : ¬ c = 0x3C := by omega
    have e2 : ¬ c = 0x3E := by omega
    have e3 : ¬ c = 0x26 := by omega
    have e4 : ¬ c = 0x7F := by omega
    have e5 : ¬ c = 0x2028 := by omega
    have e6 : ¬ c = 0x2029 := by omega
    have hm : c / 16 % 16 = c / 16 := by omega
    simp [escapeRune, specEscapeChar, h1, h2, h3, h4, h5, hlt, e1, e2, e3, e4, e5, e6, hm]
  by_cases g1 : c = 0x3C
  · simp [escapeRune, specEscapeChar, h1, h2, h3, h4, h5, hlt, g1]
  by_cases g2 : c = 0x3E
  · simp [escapeRune, specEscapeChar, h1, h2, h3, h4, h5, hlt, g1, g2]
  by_cases g3 : c = 0x26
  · simp [escapeRune, specEscapeChar, h1, h2, h3, h4, h5, hlt, g1, g2, g3]
  by_cases g4 : c = 0x7F
  · simp [escapeRune, specEscapeChar, h1, h2, h3, h4, h5, hlt, g1, g2, g3, g4]
  by_cases g5 : c = 0x2028
  · simp [escapeRune, specEscapeChar, h1, h2, h3, h4, h5, hlt, g1, g2, g3, g4, g5]
  by_cases g6 : c = 0x2029
  · simp [escapeRune, specEscapeChar, h1, h2, h3, h4, h5, hlt, g1, g2, g3, g4, g5, g6]
  simp [escapeRune, specEscapeChar, h1, h2, h3, h4, h5, hlt, g1, g2, g3, g4, g5, g6]

theorem decodeGoF_nil (fuel : Nat) : decodeGoF fuel [] = [] := by
  cases fuel <;> rfl

theorem specDecodeF_nil (fuel : Nat) : specDecodeF fuel [] = [] := by
  cases fuel <;> rfl

theorem spec2_iff (b0 b1 : Nat) :
    (encodeUTF8 (rune2 b0 b1) = [b0, b1] ∧ isValidScalar (rune2 b0 b1) = true)
      ↔ (0xC2 ≤ b0 ∧ b0 ≤ 0xDF ∧ isCont b1 = true) := by
  unfold encodeUTF8 rune2 isValidScalar isCont
  split_ifs <;> simp_all <;> omega

theorem spec3_iff (b0 b1 b2 : Nat) :
    (encodeUTF8 (rune3 b0 b1 b2) = [b0, b1, b2] ∧
        isValidScalar (rune3 b0 b1 b2) = true)
      ↔ (0xE0 ≤ b0 ∧ b0 ≤ 0xEF ∧ snd3ok b0 b1 = true ∧ isCont b2 = true) := by
  unfold encodeUTF8 rune3 isValidScalar snd3ok isCont
  split_ifs <;> simp_all <;> omega

theorem spec4_iff (b0 b1 b2 b3 : Nat) :
    (encodeUTF8 (rune4 b0 b1 b2 b3) = [b0, b1, b2, b3] ∧
        isValidScalar (rune4 b0 b1 b2 b3) = true)
      ↔ (0xF0 ≤ b0 ∧ b0 ≤ 0xF4 ∧
          (snd4ok b0 b1 = true ∧ isCont b2 = true) ∧ isCont b3 = true) := by
  unfold encodeUTF8 rune4 isValidScalar snd4ok isCont
  split_ifs <;> simp_all <;> omega

theorem decodeGoF_eq_specDecodeF (fuel : Nat) :
    ∀ bs, decodeGoF fuel bs = specDecodeF fuel bs := by
  induction fuel with
  | zero => intro bs; cases bs <;> rfl
  | succ fuel ih =>
    intro bs
    cases bs with
    | nil => rfl
    | cons b0 rest =>
      by_cases hA : b0 < 0x80
      · cases rest with
        | nil => simp [decodeGoF, specDecodeF, hA, decodeGoF_nil, specDecodeF_nil]
        | cons b1 rest1 => simp [decodeGoF, specDecodeF, hA, ih]
      ·
        cases rest with
        | nil =>
          simp only [decodeGoF, specDecodeF, spec2_iff, spec3_iff, spec4_iff,
            decodeGoF_nil, specDecodeF_nil]
          split_ifs <;> rfl
        | cons b1 rest1 =>
          by_cases hc2 : 0xC2 ≤ b0 ∧ b0 ≤ 0xDF ∧ isCont b1 = true
          · have e2 : (decide (b0 < 0xC2) || decide (0xF4 < b0)) = false := by
              simp only [Bool.or_eq_false_iff, decide_eq_false_iff_not]
              omega
            cases rest1 with
            | nil =>
              simp [decodeGoF, specDecodeF, spec2_iff, hA, e2, hc2, hc2.2.1,
                hc2.2.2, decodeGoF_nil, specDecodeF_nil]
            | cons b2 rest2 =>
              cases rest2 with
              | nil =>
                simp [decodeGoF, specDecodeF, spec2_iff, hA, e2, hc2, hc2.2.1,
                  hc2.2.2, ih]
              | cons b3 rest3 =>
                simp [decodeGoF, specDecodeF, spec2_iff, hA, e2, hc2, hc2.2.1,
                  hc2.2.2, ih]
          · cases rest1 with
            | nil =>
              simp only [decodeGoF, specDecodeF, spec2_iff, spec3_iff, spec4_iff,
                decodeGoF_nil, specDecodeF_nil]
              split_ifs <;>
                first
                | rfl
                | (rw [ih]; done)
                | (exfalso; simp only [isCont, Bool.and_eq_true, Bool.or_eq_true,
                     decide_eq_true_eq] at *; omega)
            | cons b2 rest2 =>
              by_cases hc3 : 0xE0 ≤ b0 ∧ b0 ≤ 0xEF ∧ snd3ok b0 b1 = true ∧ isCont b2 = true
              · have e2 : (decide (b0 < 0xC2) || decide (0xF4 < b0)) = false := by
                  simp only [Bool.or_eq_false_iff, decide_eq_false_iff_not]
                  omega
                have e3 : ¬ b0 ≤ 0xDF := by omega
                cases rest2 with
                | nil =>
                  simp [decodeGoF, specDecodeF, spec2_iff, spec3_iff, hA, e2, e3,
                    hc2, hc3, hc3.2.1, hc3.2.2.1, hc3.2.2.2, decodeGoF_nil,
                    specDecodeF_nil]
                | cons b3 rest3 =>
                  simp [decodeGoF, specDecodeF, spec2_iff, spec3_iff, hA, e2, e3,
                    hc2, hc3, hc3.2.1, hc3.2.2.1, hc3.2.2.2, ih]
              · cases rest2 with
                | nil =>
                  simp only [decodeGoF, specDecodeF, spec2_iff, spec3_iff, spec4_iff,
                    decodeGoF_nil, specDecodeF_nil]
                  split_ifs <;>
                    first
                    | rfl
                    | (rw [ih]; done)
                    | (exfalso; simp only [isCont, snd3ok, Bool.and_eq_true,
                         Bool.or_eq_true, decide_eq_true_eq] at *; omega)
                | cons b3 rest3 =>
                  by_cases hc4 : 0xF0 ≤ b0 ∧ b0 ≤ 0xF4 ∧
                      (snd4ok b0 b1 = true ∧ isCont b2 = true) ∧ isCont b3 = true
                  · have e2 : (decide (b0 < 0xC2) || decide (0xF4 < b0)) = false := by
                      simp only [Bool.or_eq_false_iff, decide_eq_false_iff_not]
                      omega
                    have e3 : ¬ b0 ≤ 0xDF := by omega
                    have e4 : ¬ b0 ≤ 0xEF := by omega
                    simp [decodeGoF, specDecodeF, spec2_iff, spec3_iff, spec4_iff,
                      hA, e2, e3, e4, hc2, hc3, hc4, hc4.2.1, hc4.2.2.1.1,
                      hc4.2.2.1.2, hc4.2.2.2, ih]
                  · -- every decode attempt fails: one replacement character
                    by_cases e2 : (decide (b0 < 0xC2) || decide (0xF4 < b0)) = true
                    · simp [decodeGoF, specDecodeF, spec2_iff, spec3_iff, spec4_iff,
                        hA, e2, hc2, hc3, hc4, ih]
                    · have hr : 0xC2 ≤ b0 ∧ b0 ≤ 0xF4 := by
                        simp only [Bool.or_eq_true, decide_eq_true_eq] at e2
                        omega
                      by_cases e3 : b0 ≤ 0xDF
                      · have hb1 : isCont b1 = false := by
                          cases h : isCont b1
                          · rfl
                          · exact absurd ⟨hr.1, e3, h⟩ hc2
                        simp [decodeGoF, specDecodeF, spec2_iff, spec3_iff,
                          spec4_iff, hA, e2, e3, hb1, hc2, hc3, hc4, ih]
                      · by_cases e4 : b0 ≤ 0xEF
                        · have hb2 : (snd3ok b0 b1 && isCont b2) = false := by
                            cases h : (snd3ok b0 b1 && isCont b2)
                            · rfl
                            · rw [Bool.and_eq_true] at h
                              exact absurd ⟨by omega, e4, h.1, h.2⟩ hc3
                          simp only [decodeGoF, specDecodeF, spec2_iff, spec3_iff,
                            spec4_iff, hA, e2, e3, e4, hb2, hc2, hc3, hc4, ih,
                            if_false, if_true, ite_false, ite_true]
                          simp only [Bool.false_eq_true, if_false, false_and,
                            and_false, true_and, and_true]
                          rw [if_neg (fun hx => hc3 ⟨hx.1, e4, hx.2.1, hx.2.2⟩)]
                        · have hb3 : (snd4ok b0 b1 && isCont b2 && isCont b3) = false := by
                            cases h : (snd4ok b0 b1 && isCont b2 && isCont b3)
                            · rfl
                            · rw [Bool.and_eq_true, Bool.and_eq_true] at h
                              exact absurd ⟨by omega, by omega, h.1, h.2⟩ hc4
                          simp [decodeGoF, specDecodeF, spec2_iff, spec3_iff,
                            spec4_iff, hA, e2, e3, e4, hb3, hc2, hc3, hc4, ih]

theorem decodeGo_eq_specDecode (bs : Bytes) : decodeGo bs = specDecode bs :=
  decodeGoF_eq_specDecodeF bs.length bs

/-- C3: for every input byte sequence, `appendRawString` escapes each
decoded character exactly per the specification's table (backslash, quote,
newline, carriage return, tab, other control characters below 0x20 as
lowercase `\u00XX`, `<`, `>`, `&`, DEL, U+2028, U+2029, everything else
verbatim), after replacing each malformed byte sequence by the Unicode
replacement character (`specDecode` consumes a prefix verbatim exactly
when it is the canonical UTF-8 encoding of a Unicode scalar value). -/
theorem c3_escape_table_spec (v : Bytes) :
    appendRawString v = (specDecode v).flatMap specEscapeChar := by
  unfold appendRawString
  rw [decodeGo_eq_specDecode]
  exact List.flatMap_congr (fun c _ => escapeRune_eq_spec c)

/-! ## Decimal rendering of integers (`strconv.AppendInt` / `AppendUint`) -/

/-- Decimal digits, most significant first; fuelled structural recursion
(the fuel only bounds the digit count). -/
def natDecimalAux : Nat → Nat → Bytes
  | 0, _ => []
  | fuel + 1, n =>
    if n < 10 then [0x30 + n] else natDecimalAux fuel (n / 10) ++ [0x30 + n % 10]

def natDecimal (n : Nat) : Bytes := natDecimalAux (n + 1) n

/-- `strconv.AppendInt(_, v, 10)`. -/
def intDecimal (i : Int) : Bytes :=
  if i < 0 then 0x2D :: natDecimal i.natAbs else natDecimal i.natAbs

/-! ## Floating point

Finite IEEE values are carried as bit patterns (`Nat`), decomposed
exactly; `strconv.AppendFloat(v, fmt, -1, bitSize)` — an external
standard-library collaborator — is modelled from its documented contract:
the shortest decimal digit sequence that parses back (round-to-nearest,
ties-to-even) to the same value, found by searching digit counts in
increasing order inside the exact rounding interval of the value, with an
exact-decimal fallback (provably unreachable) to stay total. -/

structure FloatFmt where
  mantBits : Nat
  expBits : Nat

def f64fmt : FloatFmt := ⟨52, 11⟩

def f32fmt : FloatFmt := ⟨23, 8⟩

def expFieldOf (f : FloatFmt) (bits : Nat) : Nat := bits / 2 ^ f.mantBits % 2 ^ f.expBits

def mantFieldOf (f : FloatFmt) (bits : Nat) : Nat := bits % 2 ^ f.mantBits

def signbOf (f : FloatFmt) (bits : Nat) : Bool :=
  decide (bits / 2 ^ (f.mantBits + f.expBits) % 2 = 1)

/-- `math.IsNaN` on the decomposed pattern. -/
def isNaNb (f : FloatFmt) (bits : Nat) : Bool :=
  decide (expFieldOf f bits = 2 ^ f.expBits - 1 ∧ mantFieldOf f bits ≠ 0)

/-- `math.IsInf(v, 0)` on the decomposed pattern. -/
def isInfb (f : FloatFmt) (bits : Nat) : Bool :=
  decide (expFieldOf f bits = 2 ^ f.expBits - 1 ∧ mantFieldOf f bits = 0)

def isFiniteb (f : FloatFmt) (bits : Nat) : Bool :=
  decide (expFieldOf f bits ≠ 2 ^ f.expBits - 1)

/-- Integral significand of a finite value. -/
def mantVal (f : FloatFmt) (bits : Nat) : Nat :=
  if expFieldOf f bits = 0 then mantFieldOf f bits
  else mantFieldOf f bits + 2 ^ f.mantBits

/-- Binary exponent: `|v| = mantVal · 2 ^ expVal`. -/
def expVal (f : FloatFmt) (bits : Nat) : Int :=
  (if expFieldOf f bits = 0 then 1 else (expFieldOf f bits : Int)) -
    (2 ^ (f.expBits - 1) - 1) - f.mantBits

/-- Exact absolute value of a finite pattern. -/
def absQ (f : FloatFmt) (bits : Nat) : ℚ :=
  (mantVal f bits : ℚ) * (2 : ℚ) ^ expVal f bits

/-- Binary exponent of the gap to the next-smaller finite value
(halved at a binade boundary). -/
def lowGapExp (f : FloatFmt) (bits : Nat) : Int :=
  if mantFieldOf f bits = 0 ∧ 1 < expFieldOf f bits then expVal f bits - 1
  else expVal f bits

/-- Lower endpoint of the rounding interval of `|v|`. -/
def lowQ (f : FloatFmt) (bits : Nat) : ℚ :=
  absQ f bits - (2 : ℚ) ^ lowGapExp f bits / 2

/-- Upper endpoint of the rounding interval of `|v|`. -/
def highQ (f : FloatFmt) (bits : Nat) : ℚ :=
  absQ f bits + (2 : ℚ) ^ expVal f bits / 2

/-- Round-to-nearest-even admits the interval endpoints exactly when the
significand is even. -/
def acceptB (f : FloatFmt) (bits : Nat) : Bool := decide (mantVal f bits % 2 = 0)

def qpow10 (k : Int) : ℚ := (10 : ℚ) ^ k

/-- `D · 10^k` parses back (nearest, ties-to-even) to the value. -/
def inIntervalQ (f : FloatFmt) (bits : Nat) (q : ℚ) : Prop :=
  if acceptB f bits = true then lowQ f bits ≤ q ∧ q ≤ highQ f bits
  else lowQ f bits < q ∧ q < highQ f bits

instance (f : FloatFmt) (bits : Nat) (q : ℚ) : Decidable (inIntervalQ f bits q) := by
  unfold inIntervalQ
  split_ifs <;> infer_instance

/-- Candidate decimal exponents for an `n`-digit decimal inside the
rounding interval. -/
def kCandList (f : FloatFmt) (bits : Nat) (n : Nat) : List Int :=
  let l1 := Int.log 10 (lowQ f bits)
  let l2 := Int.log 10 (highQ f bits)
  (List.range (l2 - l1 + 1).toNat).map (fun i => l1 + i + 1 - n)

/-- All `n`-digit decimals `D·10^k` inside the rounding interval, if any:
the representable integer range for `D`; the returned digit string is the
one closest to the exact value (clamped into the valid range). -/
def tryNK (f : FloatFmt) (bits : Nat) (n : Nat) (k : Int) : Option (Nat × Int) :=
  let p := qpow10 k
  let dlo : Int :=
    if acceptB f bits then Int.ceil (lowQ f bits / p) else Int.floor (lowQ f bits / p) + 1
  let dhi : Int :=
    if acceptB f bits then Int.floor (highQ f bits / p) else Int.ceil (highQ f bits / p) - 1
  let lo : Int := max dlo (10 ^ (n - 1))
  let hi : Int := min dhi (10 ^ n - 1)
  if lo ≤ hi then
    let dv : Int := Int.floor (absQ f bits / p + 1 / 2)
    some ((min (max dv lo) hi).toNat, k)
  else none

/-- Shortest round-tripping decimal: digit counts tried in increasing
order. -/
def searchShortest (f : FloatFmt) (bits : Nat) : Option (Nat × Int) :=
  (List.range 17).findSome? (fun i =>
    (kCandList f bits (i + 1)).findSome? (fun k => tryNK f bits (i + 1) k))

/-- Exact decimal expansion of the finite value (total fallback; the
search is proven to succeed for every representable finite value). -/
def exactDigits (f : FloatFmt) (bits : Nat) : Nat × Int :=
  if 0 ≤ expVal f bits then (mantVal f bits * 2 ^ (expVal f bits).toNat, 0)
  else (mantVal f bits * 5 ^ (-expVal f bits).toNat, expVal f bits)

def shortestDigits (f : FloatFmt) (bits : Nat) : Nat × Int :=
  (searchShortest f bits).getD (exactDigits f bits)

/-- `strconv` fixed-point rendering (`'f'`, precision -1) of `D·10^k`. -/
def formatFixed (d : Nat) (k : Int) : Bytes :=
  if 0 ≤ k then natDecimal d ++ List.replicate k.toNat 0x30
  else
    let ds := natDecimal d
    let frac := (-k).toNat
    if frac < ds.length then
      ds.take (ds.length - frac) ++ 0x2E :: ds.drop (ds.length - frac)
    else 0x30 :: 0x2E :: (List.replicate (frac - ds.length) 0x30 ++ ds)

/-- `strconv` exponent suffix: `e`, an always-present sign, and the
magnitude zero-padded to at least two digits. -/
def formatExpPart (dexp : Int) : Bytes :=
  let mag := natDecimal dexp.natAbs
  0x65 :: (if dexp < 0 then 0x2D else 0x2B) ::
    (if mag.length < 2 then 0x30 :: mag else mag)

/-- `strconv` exponential rendering (`'e'`, precision -1) of `D·10^k`. -/
def formatExp (d : Nat) (k : Int) : Bytes :=
  let ds := natDecimal d
  (if ds.length = 1 then ds else ds.take 1 ++ 0x2E :: ds.drop 1) ++
    formatExpPart (k + ds.length - 1)

/-- The `e-09` → `e-9` cleanup in `appendFloat64` / `appendFloat32`:
`if n >= 4 && b[n-4] == 'e' && b[n-3] == '-' && b[n-2] == '0'`. -/
def stripExpZero (b : Bytes) : Bytes :=
  let n := b.length
  if 4 ≤ n ∧ b.getD (n - 4) 0 = 0x65 ∧ b.getD (n - 3) 0 = 0x2D ∧
      b.getD (n - 2) 0 = 0x30 then
    b.take (n - 2) ++ [b.getD (n - 1) 0]
  else b

/-- ASCII string literal as bytes. -/
def asciiB (s : String) : Bytes := s.data.map Char.toNat

/-- The Go literal `1e-6` as a float64 (correctly rounded, see
`lit64em6_correct`). -/
def lit64em6 : ℚ := (4722366482869645 : ℚ) * (2 : ℚ) ^ (-72 : Int)

/-- The Go literal `1e21` as a float64 (exactly representable). -/
def lit64e21 : ℚ := (7629394531250000 : ℚ) * (2 : ℚ) ^ (17 : Int)

/-- The Go literal `1e-6` as a float32. -/
def lit32em6 : ℚ := (8796093 : ℚ) * (2 : ℚ) ^ (-43 : Int)

/-- The Go literal `1e21` as a float32. -/
def lit32e21 : ℚ := (14210855 : ℚ) * (2 : ℚ) ^ (46 : Int)

/-- The digits of `strconv.AppendFloat` plus format selection, shared by
`appendFloat64` / `appendFloat32`. -/
def renderFinite (f : FloatFmt) (bits : Nat) (useExp : Bool) : Bytes :=
  if mantVal f bits = 0 then [0x30]
  else
    let dk := shortestDigits f bits
    if useExp then stripExpZero (formatExp dk.1 dk.2) else formatFixed dk.1 dk.2

def errUnsupported : Bytes := asciiB "ctxio: unsupported value"

def appendFloatW (f : FloatFmt) (litLo litHi : ℚ) (bits : Nat) : Except Bytes Bytes :=
  if isInfb f bits || isNaNb f bits then Except.error errUnsupported
  else
    let useExp : Bool :=
      decide (mantVal f bits ≠ 0 ∧ (absQ f bits < litLo ∨ litHi ≤ absQ f bits))
    let body := renderFinite f bits useExp
    Except.ok (if signbOf f bits then 0x2D :: body else body)

/-- `encodeState.appendFloat64`. -/
def appendFloat64 (bits : Nat) : Except Bytes Bytes :=
  appendFloatW f64fmt lit64em6 lit64e21 bits

/-- `encodeState.appendFloat32` (the Go code widens to float64 for the
inf/NaN test and the comparisons are performed at float32 precision,
which the exact float32 constants reproduce). -/
def appendFloat32 (bits : Nat) : Except Bytes Bytes :=
  appendFloatW f32fmt lit32em6 lit32e21 bits

/-! ## Values, `appendAny`, `appendFields`, the record -/

/-- The `any` values handled by `encodeState.appendAny`.  The Go type
switch widens every signed integer width to `appendInt(int64(v))` and
every unsigned width to `appendUint(uint64(v))`; the `default` branch
delegates to an `encoding/json` encoder — an external collaborator whose
result (bytes or failure) is carried as data. -/
inductive Value where
  | vInt (v : Int)
  | vUint (v : Nat)
  | vStr (s : Bytes)
  | vBool (b : Bool)
  | vFloat64 (bits : Nat)
  | vFloat32 (bits : Nat)
  | vOther (enc : Except Bytes Bytes)

/-- `encodeState.appendBool`. -/
def appendBool (b : Bool) : Bytes := if b then asciiB "true" else asciiB "false"

/-- `encodeState.appendAny`.  `json.Encoder.Encode` terminates the value
with a newline, hence the appended `0x0A` in the fallback case. -/
def appendAny : Value → Except Bytes Bytes
  | .vInt v => Except.ok (intDecimal v)
  | .vUint v => Except.ok (natDecimal v)
  | .vStr s => Except.ok (appendString s)
  | .vBool b => Except.ok (appendBool b)
  | .vFloat32 bits => appendFloat32 bits
  | .vFloat64 bits => appendFloat64 bits
  | .vOther (.ok bs) => Except.ok (bs ++ [0x0A])
  | .vOther (.error e) => Except.error e

abbrev FieldsL := FieldsOf Value

/-- `reservedFields` from tinyjson.go. -/
def reservedFields : List Bytes :=
  [asciiB "time", asciiB "level", asciiB "file", asciiB "line", asciiB "message"]

/-- The key as emitted by `appendFields` (before escaping): the
`field.` prefix is written exactly when the key is reserved. -/
def emitKeyOf (k : Bytes) : Bytes :=
  if k ∈ reservedFields then asciiB "field." ++ k else k

/-- The emitted key list of one `appendFields` call (used to state the
duplicate-key property). -/
def emittedKeys (parent : List FieldsL) (fields : FieldsL) : List Bytes :=
  (mergedKVs fields parent).map (fun p => emitKeyOf p.1)

/-- The emission loop of `appendFields`: each surviving pair is written as
`,"key":value`; a value-rendering error aborts the loop (bytes already
written stay in the buffer). -/
def emitKVs : List (Bytes × Value) → Bytes × Option Bytes
  | [] => ([], none)
  | (k, v) :: rest =>
    let keyPart := 0x2C :: 0x22 :: (appendRawString (emitKeyOf k) ++ [0x22, 0x3A])
    match appendAny v with
    | .error e => (keyPart, some e)
    | .ok vb =>
      let t := emitKVs rest
      (keyPart ++ vb ++ t.1, t.2)

/-- `encodeState.appendFields`: merge, then emit. -/
def appendFields (parent : List FieldsL) (fields : FieldsL) : Bytes × Option Bytes :=
  emitKVs (mergedKVs fields parent)

/-! ## Levels, flags, logger, `OutputContext` -/

def Ldate : Nat := 1
def Ltime : Nat := 2
def Lmicroseconds : Nat := 4
def Llongfile : Nat := 8
def Lshortfile : Nat := 16
def LUTC : Nat := 32
def Lmsgprefix : Nat := 64
def LstdFlags : Nat := Ldate + Ltime

def levelTrace : Int := -1
def levelDebug : Int := 0
def levelInfo : Int := 1
def levelWarn : Int := 2
def levelError : Int := 3
def levelFatal : Int := 4
def levelPanic : Int := 5
def levelNo : Int := 6
def levelDisabled : Int := 7

/-- `Level.String()`: the switch over the named levels; every other value
falls through to `"trace"`. -/
def levelString (lv : Int) : Bytes :=
  if lv = levelDebug then asciiB "debug"
  else if lv = levelInfo then asciiB "info"
  else if lv = levelWarn then asciiB "warn"
  else if lv = levelError then asciiB "error"
  else if lv = levelFatal then asciiB "fatal"
  else if lv = levelPanic then asciiB "panic"
  else if lv = levelNo then asciiB "no"
  else if lv = levelDisabled then asciiB "disabled"
  else asciiB "trace"

/-- Calendar/clock fields read from a `time.Time` by `appendTime`. -/
structure DateFields where
  year : Nat
  month : Nat
  day : Nat
  hour : Nat
  minute : Nat
  second : Nat
  nanosec : Nat
deriving DecidableEq

/-- A `time.Time`, carrying both its own wall-clock reading and the one
after `t.UTC()` (timezone conversion is external to the encoder). -/
structure GoTime where
  loc : DateFields
  utc : DateFields
deriving DecidableEq

/-- `encodeState.appendTime`: fixed-width digit placement driven by the
flag bits. -/
def appendTime (flags : Nat) (t : GoTime) : Bytes :=
  let d := if flags &&& LUTC ≠ 0 then t.utc else t.loc
  (if flags &&& Ldate ≠ 0 then
    [0x30 + d.year / 1000, 0x30 + d.year / 100 % 10, 0x30 + d.year / 10 % 10,
     0x30 + d.year % 10, 0x2D, 0x30 + d.month / 10, 0x30 + d.month % 10, 0x2D,
     0x30 + d.day / 10, 0x30 + d.day % 10]
  else []) ++
  (if flags &&& (Ltime + Lmicroseconds) ≠ 0 then
    (if flags &&& Ldate ≠ 0 then [0x54] else []) ++
    [0x30 + d.hour / 10, 0x30 + d.hour % 10, 0x3A, 0x30 + d.minute / 10,
     0x30 + d.minute % 10, 0x3A, 0x30 + d.second / 10, 0x30 + d.second % 10] ++
    (if flags &&& Lmicroseconds ≠ 0 then
      let micro := d.nanosec / 1000
      [0x2E, 0x30 + micro / 100000, 0x30 + micro / 10000 % 10,
       0x30 + micro / 1000 % 10, 0x30 + micro / 100 % 10, 0x30 + micro / 10 % 10,
       0x30 + micro % 10]
    else [])
  else []) ++
  (if flags &&& LUTC ≠ 0 then [0x5A] else [])

/-- The logger configuration (sink and mutex are external; `isDiscard`
only matters as the boolean fast path, passed where needed). -/
structure Logger where
  prefixVal : Bytes
  flag : Nat
  level : Int

/-- `Logger.Flags()` — log.go: `// TODO: implement me` / `return 0`:
the construction-time flag bits are never consulted. -/
def Logger.Flags (_ : Logger) : Nat := 0

/-- `Logger.Prefix()` — log.go: `// TODO: implement me` / `return ""`. -/
def Logger.Prefix (_ : Logger) : Bytes := []

/-- `Logger.Level()`. -/
def Logger.Level (l : Logger) : Int := l.level

/-- The context value stored under `keyFields`, if any (`ctx.Value`
returns `nil` for a context never passed through `With`). -/
def CtxVal := Option (List FieldsL)

/-- `contextFields`: the nil check turns an absent value into the empty
chain instead of failing. -/
def contextFields : CtxVal → List FieldsL
  | none => []
  | some ch => ch

/-- `context.Background()`: no `keyFields` entry. -/
def ctxBackground : CtxVal := none

/-- `With(parent, fields)`: a new immutable scope node in front of the
parent's chain. -/
def withFields (parent : CtxVal) (fields : FieldsL) : CtxVal :=
  some (fields :: contextFields parent)

/-- The `Lshortfile` reduction: scan from the end for a `/` at a positive
index; keep everything after it. -/
def shortenFile (file : Bytes) : Bytes :=
  match (List.range file.length).reverse.find?
      (fun i => decide (0 < i ∧ file.getD i 0 = 0x2F)) with
  | some i => file.drop (i + 1)
  | none => file

/-- `Logger.OutputContext`: the record bytes written to the sink, or
`none` when the level threshold suppresses the call.  `runtime.Caller`'s
result is an input (`callerOk`, `callerFile`, `callerLine`); the error of
`appendFields` is discarded by the Go code, so only its bytes appear. -/
def outputContext (l : Logger) (now : GoTime) (callerOk : Bool)
    (callerFile : Bytes) (callerLine : Int) (ctx : CtxVal) (level : Int)
    (msg : Bytes) (fields : FieldsL) : Option Bytes :=
  if level < l.Level then none
  else
    let flags := l.Flags
    let timePart :=
      if flags &&& (Ldate + Ltime + Lmicroseconds) ≠ 0 then
        appendString (asciiB "time") ++ [0x3A, 0x22] ++ appendTime flags now ++
          [0x22, 0x2C]
      else []
    let levelPart :=
      appendString (asciiB "level") ++ [0x3A] ++ appendString (levelString level) ++
        [0x2C]
    let msgPart :=
      appendString (asciiB "message") ++ [0x3A, 0x22] ++
        (if l.Flags &&& Lmsgprefix = 0 then
          appendRawString l.Prefix ++ appendRawString msg
        else appendRawString msg ++ appendRawString l.Prefix) ++ [0x22]
    let filePart :=
      if l.Flags &&& (Lshortfile + Llongfile) ≠ 0 then
        let file := if !callerOk then asciiB "???"
          else if l.flag &&& Lshortfile ≠ 0 then shortenFile callerFile
          else callerFile
        let line := if !callerOk then 0 else callerLine
        0x2C :: (appendString (asciiB "file") ++ [0x3A] ++ appendString file ++
          [0x2C] ++ appendString (asciiB "line") ++ [0x3A] ++ intDecimal line)
      else []
    let fieldsPart := (appendFields (contextFields ctx) fields).1
    some (0x7B :: (timePart ++ levelPart ++ msgPart ++ filePart ++ fieldsPart ++
      [0x7D, 0x0A]))

/-- `Logger.FatalContext` calls `OutputContext` unconditionally (no
`isDiscard` fast path, unlike `Trace`..`Error`) and then exits; this is
the record it emits before terminating. -/
def fatalContextEmission (l : Logger) (now : GoTime) (callerOk : Bool)
    (callerFile : Bytes) (callerLine : Int) (ctx : CtxVal) (msg : Bytes)
    (fields : FieldsL) : Option Bytes :=
  outputContext l now callerOk callerFile callerLine ctx levelFatal msg fields

/-- `Logger.PanicContext`, likewise. -/
def panicContextEmission (l : Logger) (now : GoTime) (callerOk : Bool)
    (callerFile : Bytes) (callerLine : Int) (ctx : CtxVal) (msg : Bytes)
    (fields : FieldsL) : Option Bytes :=
  outputContext l now callerOk callerFile callerLine ctx levelPanic msg fields

/-- C2 (code bug): a caller attribute named `time` is re-emitted under
`field.time`, but an attribute literally named `field.time` keeps its
name, so supplying both yields the JSON key `field.time` twice — the
emitted record has a duplicate key, contradicting the no-duplicate
invariant asserted by the specification and by the repository's own
`FuzzTinyJSON` round-trip property. -/
theorem c2_duplicate_emitted_key :
    emittedKeys [] [(asciiB "time", Value.vInt 1), (asciiB "field.time", Value.vInt 2)] =
      [asciiB "field.time", asciiB "field.time"] ∧
    ¬ (emittedKeys [] [(asciiB "time", Value.vInt 1),
        (asciiB "field.time", Value.vInt 2)]).Nodup := by
  decide

/-- C5 (code bug): `Logger.Flags()` is a `TODO` stub returning 0, so a
logger constructed with the date+time(+UTC) options never emits the
`time` field (nor file/line): the record for the specification's own
scenario (level info, message "hello", date+time+UTC flags) comes out as
`{"level":"info","message":"hello"}` — with no `time` field and
independent of the clock — where the specification requires the `time`
field to be present. -/
theorem c5_time_field_not_emitted :
    outputContext ⟨[], LstdFlags + LUTC, levelInfo⟩
        ⟨⟨2001, 2, 3, 4, 5, 6, 123456789⟩, ⟨2001, 2, 3, 4, 5, 6, 123456789⟩⟩ true
        (asciiB "a/b.go") 7 ctxBackground levelInfo (asciiB "hello") [] =
      some (0x7B :: (asciiB "\"level\":\"info\",\"message\":\"hello\"" ++
        [0x7D, 0x0A])) := by
  decide

/-- C6 (code bug): `Level.String()` renders every named level correctly,
but an out-of-range custom level below the trace threshold (for example
-2) falls through the switch to `"trace"` instead of the numeric fallback
promised by the specification and by the comment next to `LevelTrace`
("Values less than TraceLevel are handled as numbers"). -/
theorem c6_level_numeric_fallback_missing :
    levelString (-2) = asciiB "trace" ∧ levelString (-2) ≠ asciiB "-2" ∧
    levelString levelTrace = asciiB "trace" ∧
    levelString levelDebug = asciiB "debug" ∧
    levelString levelInfo = asciiB "info" ∧
    levelString levelWarn = asciiB "warn" ∧
    levelString levelError = asciiB "error" ∧
    levelString levelFatal = asciiB "fatal" ∧
    levelString levelPanic = asciiB "panic" := by
  decide

/-- C9 counterexample: with the threshold set to `LevelDisabled`, a
fatal-severity (or panic-severity) call emits nothing before its
terminating action — the threshold does suppress terminal-severity
records, contrary to the claim. -/
theorem c9_threshold_suppresses_fatal :
    fatalContextEmission ⟨[], LstdFlags, levelDisabled⟩
        ⟨⟨2001, 2, 3, 4, 5, 6, 0⟩, ⟨2001, 2, 3, 4, 5, 6, 0⟩⟩ true [] 0
        ctxBackground (asciiB "boom") [] = none ∧
    panicContextEmission ⟨[], LstdFlags, levelDisabled⟩
        ⟨⟨2001, 2, 3, 4, 5, 6, 0⟩, ⟨2001, 2, 3, 4, 5, 6, 0⟩⟩ true [] 0
        ctxBackground (asciiB "boom") [] = none := by
  decide

/-- C9 (amended): a fatal- or panic-severity call always invokes the
encoder (it skips the `isDiscard` fast path used by the non-terminal
helpers), but the configured level threshold still applies inside
`OutputContext`: the record is emitted exactly when the call's severity
is not below the threshold, and a threshold above fatal/panic (such as
`LevelDisabled`) suppresses the emission before the terminating action. -/
theorem c9_terminal_emission_gated (l : Logger) (now : GoTime) (ok : Bool)
    (file : Bytes) (line : Int) (ctx : CtxVal) (msg : Bytes) (fields : FieldsL) :
    (fatalContextEmission l now ok file line ctx msg fields =
      outputContext l now ok file line ctx levelFatal msg fields) ∧
    ((fatalContextEmission l now ok file line ctx msg fields).isSome ↔
      ¬ levelFatal < l.level) ∧
    ((panicContextEmission l now ok file line ctx msg fields).isSome ↔
      ¬ levelPanic < l.level) := by
  refine ⟨rfl, ?_, ?_⟩ <;>
    · simp only [fatalContextEmission, panicContextEmission, outputContext,
        Logger.Level]
      split_ifs with h <;> simp [h]

/-- C10: a context never passed through `With` yields the empty chain
(`nil`) from `contextFields` rather than failing, and encoding with it
produces exactly the same record as encoding with an explicitly
established empty scope (a `With` node carrying no attributes): only the
call-site fields and built-in fields appear.  (Totality of the model
witnesses that the encode completes without panicking.) -/
theorem c10_background_ctx_like_empty_chain (l : Logger) (now : GoTime)
    (ok : Bool) (file : Bytes) (line : Int) (level : Int) (msg : Bytes)
    (fields : FieldsL) :
    contextFields ctxBackground = [] ∧
    outputContext l now ok file line ctxBackground level msg fields =
      outputContext l now ok file line (withFields ctxBackground []) level msg fields := by
  refine ⟨rfl, ?_⟩
  have h : appendFields (contextFields (withFields ctxBackground [])) fields =
      appendFields (contextFields ctxBackground) fields := by
    simp [appendFields, mergedKVs, collectKVs, contextFields, withFields]
  simp only [outputContext, h]

/-! ## A standards-compliant JSON string parser (spec side, for C4) -/

def hexVal? (b : Nat) : Option Nat :=
  if 0x30 ≤ b ∧ b ≤ 0x39 then some (b - 0x30)
  else if 0x61 ≤ b ∧ b ≤ 0x66 then some (b - 0x61 + 10)
  else if 0x41 ≤ b ∧ b ≤ 0x46 then some (b - 0x41 + 10)
  else none

/-- One JSON escape after the backslash: the decoded bytes and the
remaining input (RFC 8259, including surrogate pairs). -/
def parseEsc : Bytes → Option (Bytes × Bytes)
  | [] => none
  | e :: rest1 =>
    if e = 0x6E then some ([0x0A], rest1)
    else if e = 0x72 then some ([0x0D], rest1)
    else if e = 0x74 then some ([0x09], rest1)
    else if e = 0x22 then some ([0x22], rest1)
    else if e = 0x5C then some ([0x5C], rest1)
    else if e = 0x2F then some ([0x2F], rest1)
    else if e = 0x62 then some ([0x08], rest1)
    else if e = 0x66 then some ([0x0C], rest1)
    else if e = 0x75 then
      match rest1 with
      | h1 :: h2 :: h3 :: h4 :: rest2 =>
        match hexVal? h1, hexVal? h2, hexVal? h3, hexVal? h4 with
        | some x1, some x2, some x3, some x4 =>
          let cp := x1 * 4096 + x2 * 256 + x3 * 16 + x4
          if 0xD800 ≤ cp ∧ cp ≤ 0xDBFF then
            match rest2 with
            | 0x5C :: 0x75 :: g1 :: g2 :: g3 :: g4 :: rest3 =>
              match hexVal? g1, hexVal? g2, hexVal? g3, hexVal? g4 with
              | some y1, some y2, some y3, some y4 =>
                let lo := y1 * 4096 + y2 * 256 + y3 * 16 + y4
                if 0xDC00 ≤ lo ∧ lo ≤ 0xDFFF then
                  some (encodeUTF8 (0x10000 + (cp - 0xD800) * 1024 + (lo - 0xDC00)), rest3)
                else none
              | _, _, _, _ => none
            | _ => none
          else if 0xDC00 ≤ cp ∧ cp ≤ 0xDFFF then none
          else some (encodeUTF8 cp, rest2)
        | _, _, _, _ => none
      | _ => none
    else none

/-- The body of a JSON string, after the opening quote: escapes via
`parseEsc`, control characters refused, everything else copied through;
the closing quote must end the fragment.  Returns the decoded text as
UTF-8 bytes.  Fuelled (one unit per decoded item); `parseChrs` supplies
enough fuel for any input. -/
def parseChrsF : Nat → Bytes → Option Bytes
  | 0, _ => none
  | _, [] => none
  | fuel + 1, b :: rest =>
    if b = 0x22 then (if rest = [] then some [] else none)
    else if b = 0x5C then
      match parseEsc rest with
      | some (out, rest1) => (parseChrsF fuel rest1).map (out ++ ·)
      | none => none
    else if b < 0x20 then none
    else (parseChrsF fuel rest).map (b :: ·)

def parseChrs (bs : Bytes) : Option Bytes := parseChrsF (bs.length + 1) bs

/-- A quoted JSON string fragment: decodes iff it is syntactically valid. -/
def parseJSONString : Bytes → Option Bytes
  | 0x22 :: rest => parseChrs rest
  | _ => none

/-- A well-formed UTF-8 byte string: a concatenation of canonical
encodings of Unicode scalar values. -/
def ValidUTF8 (s : Bytes) : Prop :=
  ∃ cs : List Nat, (∀ c ∈ cs, isValidScalar c = true) ∧ s = cs.flatMap encodeUTF8

theorem hexVal?_hexDigit (n : Nat) (h : n < 16) : hexVal? (hexDigit n) = some n := by
  interval_cases n <;> rfl

theorem parseChrsF_nil (fuel : Nat) : parseChrsF fuel [] = none := by
  cases fuel <;> rfl

theorem parseChrsF_mono (f : Nat) :
    ∀ bs r, parseChrsF f bs = some r → parseChrsF (f + 1) bs = some r := by
  induction f with
  | zero => intro bs r h; simp [parseChrsF] at h
  | succ f ih =>
    intro bs r h
    cases bs with
    | nil => rw [parseChrsF_nil] at h; cases h
    | cons b rest =>
      simp only [parseChrsF] at h ⊢
      split_ifs at h ⊢ with hq hbs hc
      · exact h
      · cases he : parseEsc rest with
        | none => simp only [he] at h; cases h
        | some pr =>
          simp only [he] at h ⊢
          obtain ⟨out, rest1⟩ := pr
          simp only at h ⊢
          obtain ⟨a, ha, hr⟩ := Option.map_eq_some'.mp h
          rw [ih rest1 a ha]
          simp [hr]
      all_goals
        first
        | cases h
        | (obtain ⟨a, ha, hr⟩ := Option.map_eq_some'.mp h
           rw [ih rest a ha]
           simp [hr])

theorem parseChrsF_mono_le (f g : Nat) (hfg : f ≤ g) :
    ∀ bs r, parseChrsF f bs = some r → parseChrsF g bs = some r := by
  have h2 : ∀ k bs r, parseChrsF f bs = some r → parseChrsF (f + k) bs = some r := by
    intro k
    induction k with
    | zero => intro bs r h; exact h
    | succ k ih => intro bs r h; exact parseChrsF_mono (f + k) bs r (ih bs r h)
  intro bs r h
  have hg : g = f + (g - f) := by omega
  rw [hg]
  exact h2 (g - f) bs r h

theorem parseChrsF_escape (c : Nat) (x r : Bytes) (f : Nat)
    (hv : isValidScalar c = true) (hx : parseChrsF f x = some r) :
    parseChrsF (f + (escapeRune c).length) (escapeRune c ++ x) =
      some (encodeUTF8 c ++ r) := by
  by_cases h1 : c = 0x5C
  · subst h1
    have hm := parseChrsF_mono f x r hx
    show parseChrsF (f + 1 + 1) _ = _
    simp [parseChrsF, parseEsc, encodeUTF8, hm]
  by_cases h2 : c = 0x22
  · subst h2
    have hm := parseChrsF_mono f x r hx
    show parseChrsF (f + 1 + 1) _ = _
    simp [parseChrsF, parseEsc, encodeUTF8, hm]
  by_cases h3 : c = 0x0A
  · subst h3
    have hm := parseChrsF_mono f x r hx
    show parseChrsF (f + 1 + 1) _ = _
    simp [parseChrsF, parseEsc, encodeUTF8, hm]
  by_cases h4 : c = 0x0D
  · subst h4
    have hm := parseChrsF_mono f x r hx
    show parseChrsF (f + 1 + 1) _ = _
    simp [parseChrsF, parseEsc, encodeUTF8, hm]
  by_cases h5 : c = 0x09
  · subst h5
    have hm := parseChrsF_mono f x r hx
    show parseChrsF (f + 1 + 1) _ = _
    simp [parseChrsF, parseEsc, encodeUTF8, hm]
  by_cases g1 : c = 0x3C
  · subst g1
    have hm := parseChrsF_mono_le f (f + 5) (by omega) x r hx
    show parseChrsF (f + 5 + 1) _ = _
    simp [parseChrsF, parseEsc, encodeUTF8, hexVal?, hm]
  by_cases g2 : c = 0x3E
  · subst g2
    have hm := parseChrsF_mono_le f (f + 5) (by omega) x r hx
    show parseChrsF (f + 5 + 1) _ = _
    simp [parseChrsF, parseEsc, encodeUTF8, hexVal?, hm]
  by_cases g3 : c = 0x26
  · subst g3
    have hm := parseChrsF_mono_le f (f + 5) (by omega) x r hx
    show parseChrsF (f + 5 + 1) _ = _
    simp [parseChrsF, parseEsc, encodeUTF8, hexVal?, hm]
  by_cases g4 : c = 0x7F
  · subst g4
    have hm := parseChrsF_mono_le f (f + 5) (by omega) x r hx
    show parseChrsF (f + 5 + 1) _ = _
    simp [parseChrsF, parseEsc, encodeUTF8, hexVal?, hm]
  by_cases g5 : c = 0x2028
  · subst g5
    have hm := parseChrsF_mono_le f (f + 5) (by omega) x r hx
    show parseChrsF (f + 5 + 1) _ = _
    simp [parseChrsF, parseEsc, encodeUTF8, hexVal?, hm]
  by_cases g6 : c = 0x2029
  · subst g6
    have hm := parseChrsF_mono_le f (f + 5) (by omega) x r hx
    show parseChrsF (f + 5 + 1) _ = _
    simp [parseChrsF, parseEsc, encodeUTF8, hexVal?, hm]
  by_cases hlt : c < 0x20
  · have e1 : escapeRune c =
        [0x5C, 0x75, 0x30, 0x30, hexDigit (c / 16 % 16), hexDigit (c % 16)] := by
      simp [escapeRune, h1, h2, h3, h4, h5, g1, g2, g3, g4, g5, g6, hlt]
    rw [e1]
    have hm := parseChrsF_mono_le f (f + 5) (by omega) x r hx
    have d1 : hexVal? (hexDigit (c / 16 % 16)) = some (c / 16 % 16) :=
      hexVal?_hexDigit _ (by omega)
    have d2 : hexVal? (hexDigit (c % 16)) = some (c % 16) :=
      hexVal?_hexDigit _ (by omega)
    have hcp : c / 16 % 16 * 16 + c % 16 = c := by omega
    have hs1 : ¬ (0xD800 ≤ c ∧ c ≤ 0xDBFF) := by omega
    have hs2 : ¬ (0xDC00 ≤ c ∧ c ≤ 0xDFFF) := by omega
    show parseChrsF (f + 5 + 1) _ = _
    simp [parseChrsF, parseEsc, (show hexVal? 0x30 = some 0 from rfl), d1, d2,
      hcp, hs1, hs2, hm]
  · have e1 : escapeRune c = encodeUTF8 c := by
      simp [escapeRune, h1, h2, h3, h4, h5, g1, g2, g3, g4, g5, g6, hlt]
    rw [e1]
    unfold encodeUTF8
    by_cases w1 : c < 0x80
    · have k0 : ¬ (c = 0x22) := h2
      have k1 : ¬ (c = 0x5C) := h1
      simp only [w1, if_true, List.length_cons, List.length_nil,
        List.cons_append, List.nil_append]
      show parseChrsF (f + 1) _ = _
      simp [parseChrsF, k0, k1, hlt, hx]
    · by_cases w2 : c < 0x800
      · simp only [w1, w2, if_true, if_false, List.length_cons, List.length_nil,
          List.cons_append, List.nil_append]
        have k0 : ¬ (0xC0 + c / 64 = 0x22) := by omega
        have k1 : ¬ (0xC0 + c / 64 = 0x5C) := by omega
        have k2 : ¬ (0xC0 + c / 64 < 0x20) := by omega
        have m0 : ¬ (0x80 + c % 64 = 0x22) := by omega
        have m1 : ¬ (0x80 + c % 64 = 0x5C) := by omega
        have m2 : ¬ (0x80 + c % 64 < 0x20) := by omega
        show parseChrsF (f + 1 + 1) _ = _
        simp [parseChrsF, k0, k1, k2, m0, m1, m2, hx]
      · by_cases w3 : c < 0x10000
        · simp only [w1, w2, w3, if_true, if_false, List.length_cons,
            List.length_nil, List.cons_append, List.nil_append]
          have k0 : ¬ (0xE0 + c / 4096 = 0x22) := by omega
          have k1 : ¬ (0xE0 + c / 4096 = 0x5C) := by omega
          have k2 : ¬ (0xE0 + c / 4096 < 0x20) := by omega
          have m0 : ¬ (0x80 + c / 64 % 64 = 0x22) := by omega
          have m1 : ¬ (0x80 + c / 64 % 64 = 0x5C) := by omega
          have m2 : ¬ (0x80 + c / 64 % 64 < 0x20) := by omega
          have n0 : ¬ (0x80 + c % 64 = 0x22) := by omega
          have n1 : ¬ (0x80 + c % 64 = 0x5C) := by omega
          have n2 : ¬ (0x80 + c % 64 < 0x20) := by omega
          show parseChrsF (f + 1 + 1 + 1) _ = _
          simp [parseChrsF, k0, k1, k2, m0, m1, m2, n0, n1, n2, hx]
        · simp only [w1, w2, w3, if_true, if_false, List.length_cons,
            List.length_nil, List.cons_append, List.nil_append]
          have k0 : ¬ (0xF0 + c / 262144 = 0x22) := by omega
          have k1 : ¬ (0xF0 + c / 262144 = 0x5C) := by omega
          have k2 : ¬ (0xF0 + c / 262144 < 0x20) := by omega
          have m0 : ¬ (0x80 + c / 4096 % 64 = 0x22) := by omega
          have m1 : ¬ (0x80 + c / 4096 % 64 = 0x5C) := by omega
          have m2 : ¬ (0x80 + c / 4096 % 64 < 0x20) := by omega
          have n0 : ¬ (0x80 + c / 64 % 64 = 0x22) := by omega
          have n1 : ¬ (0x80 + c / 64 % 64 = 0x5C) := by omega
          have n2 : ¬ (0x80 + c / 64 % 64 < 0x20) := by omega
          have p0 : ¬ (0x80 + c % 64 = 0x22) := by omega
          have p1 : ¬ (0x80 + c % 64 = 0x5C) := by omega
          have p2 : ¬ (0x80 + c % 64 < 0x20) := by omega
          show parseChrsF (f + 1 + 1 + 1 + 1) _ = _
          simp [parseChrsF, k0, k1, k2, m0, m1, m2, n0, n1, n2, p0, p1, p2, hx]

theorem parseChrsF_escapes (cs : List Nat) (hv : ∀ c ∈ cs, isValidScalar c = true)
    (x r : Bytes) (f : Nat) (hx : parseChrsF f x = some r) :
    parseChrsF (f + (cs.flatMap escapeRune).length) (cs.flatMap escapeRune ++ x) =
      some (cs.flatMap encodeUTF8 ++ r) := by
  induction cs with
  | nil => simpa using hx
  | cons c cs' ih =>
    have hrec := ih (fun d hd => hv d (List.mem_cons_of_mem c hd))
    have hstep := parseChrsF_escape c (cs'.flatMap escapeRune ++ x)
      (cs'.flatMap encodeUTF8 ++ r) (f + (cs'.flatMap escapeRune).length)
      (hv c (List.mem_cons_self c cs')) hrec
    simp only [List.flatMap_cons, List.length_append, List.append_assoc] at hstep ⊢
    convert hstep using 2
    omega

theorem specDecodeF_valid (fuel : Nat) :
    ∀ bs c, c ∈ specDecodeF fuel bs → isValidScalar c = true := by
  induction fuel with
  | zero => intro bs c h; cases bs <;> simp [specDecodeF] at h
  | succ fuel ih =>
    intro bs c h
    cases bs with
    | nil => simp [specDecodeF] at h
    | cons b0 rest =>
      by_cases ha : b0 < 0x80
      · simp only [specDecodeF, ha, if_true, List.mem_cons] at h
        rcases h with rfl | h
        · simp [isValidScalar]
          omega
        · exact ih rest c h
      · cases rest with
        | nil =>
          simp only [specDecodeF, ha, if_false, specDecodeF_nil, List.mem_cons,
            List.not_mem_nil, or_false] at h
          subst h
          decide
        | cons b1 rest1 =>
          cases rest1 with
          | nil =>
            simp only [specDecodeF, ha, if_false] at h
            split_ifs at h with h2
            · rcases List.mem_cons.mp h with rfl | h
              · exact h2.2
              · exact ih _ c h
            · rcases List.mem_cons.mp h with rfl | h
              · decide
              · exact ih _ c h
          | cons b2 rest2 =>
            cases rest2 with
            | nil =>
              simp only [specDecodeF, ha, if_false] at h
              split_ifs at h with h2 h3
              · rcases List.mem_cons.mp h with rfl | h
                · exact h2.2
                · exact ih _ c h
              · rcases List.mem_cons.mp h with rfl | h
                · exact h3.2
                · exact ih _ c h
              · rcases List.mem_cons.mp h with rfl | h
                · decide
                · exact ih _ c h
            | cons b3 rest3 =>
              simp only [specDecodeF, ha, if_false] at h
              split_ifs at h with h2 h3 h4
              · rcases List.mem_cons.mp h with rfl | h
                · exact h2.2
                · exact ih _ c h
              · rcases List.mem_cons.mp h with rfl | h
                · exact h3.2
                · exact ih _ c h
              · rcases List.mem_cons.mp h with rfl | h
                · exact h4.2
                · exact ih _ c h
              · rcases List.mem_cons.mp h with rfl | h
                · decide
                · exact ih _ c h

theorem specDecodeF_encode (c : Nat) (rest : Bytes) (fuel : Nat)
    (hc : isValidScalar c = true) :
    specDecodeF (fuel + 1) (encodeUTF8 c ++ rest) = c :: specDecodeF fuel rest := by
  have hval : c < 0xD800 ∨ (0xDFFF < c ∧ c < 0x110000) := by
    simpa [isValidScalar] using hc
  by_cases w1 : c < 0x80
  · have he : encodeUTF8 c = [c] := by simp [encodeUTF8, w1]
    rw [he]
    simp [specDecodeF, w1]
  · by_cases w2 : c < 0x800
    · have he : encodeUTF8 c = [0xC0 + c / 64, 0x80 + c % 64] := by
        simp [encodeUTF8, w1, w2]
      have hrune : rune2 (0xC0 + c / 64) (0x80 + c % 64) = c := by
        unfold rune2
        omega
      have hcond : encodeUTF8 (rune2 (0xC0 + c / 64) (0x80 + c % 64)) =
          [0xC0 + c / 64, 0x80 + c % 64] ∧
          isValidScalar (rune2 (0xC0 + c / 64) (0x80 + c % 64)) = true := by
        rw [hrune]
        exact ⟨he, hc⟩
      have ha : ¬ (0xC0 + c / 64 < 0x80) := by omega
      rw [he]
      simp only [List.cons_append, List.nil_append, List.append_eq, specDecodeF, ha, if_false]
      rw [if_pos hcond, hrune]
    · by_cases w3 : c < 0x10000
      · have he : encodeUTF8 c =
            [0xE0 + c / 4096, 0x80 + c / 64 % 64, 0x80 + c % 64] := by
          simp [encodeUTF8, w1, w2, w3]
        have hrune : rune3 (0xE0 + c / 4096) (0x80 + c / 64 % 64) (0x80 + c % 64) = c := by
          unfold rune3
          omega
        have hcond : encodeUTF8 (rune3 (0xE0 + c / 4096) (0x80 + c / 64 % 64)
              (0x80 + c % 64)) = [0xE0 + c / 4096, 0x80 + c / 64 % 64, 0x80 + c % 64] ∧
            isValidScalar (rune3 (0xE0 + c / 4096) (0x80 + c / 64 % 64)
              (0x80 + c % 64)) = true := by
          rw [hrune]
          exact ⟨he, hc⟩
        have ha : ¬ (0xE0 + c / 4096 < 0x80) := by omega
        have hno2 : ¬ (encodeUTF8 (rune2 (0xE0 + c / 4096) (0x80 + c / 64 % 64)) =
            [0xE0 + c / 4096, 0x80 + c / 64 % 64] ∧
            isValidScalar (rune2 (0xE0 + c / 4096) (0x80 + c / 64 % 64)) = true) := by
          rw [spec2_iff]
          omega
        rw [he]
        simp only [List.cons_append, List.nil_append, List.append_eq, specDecodeF, ha, if_false]
        rw [if_neg hno2, if_pos hcond, hrune]
      · have hc4 : c < 0x110000 := by omega
        have he : encodeUTF8 c = [0xF0 + c / 262144, 0x80 + c / 4096 % 64,
            0x80 + c / 64 % 64, 0x80 + c % 64] := by
          simp [encodeUTF8, w1, w2, w3]
        have hrune : rune4 (0xF0 + c / 262144) (0x80 + c / 4096 % 64)
            (0x80 + c / 64 % 64) (0x80 + c % 64) = c := by
          unfold rune4
          omega
        have hcond : encodeUTF8 (rune4 (0xF0 + c / 262144) (0x80 + c / 4096 % 64)
              (0x80 + c / 64 % 64) (0x80 + c % 64)) = [0xF0 + c / 262144,
              0x80 + c / 4096 % 64, 0x80 + c / 64 % 64, 0x80 + c % 64] ∧
            isValidScalar (rune4 (0xF0 + c / 262144) (0x80 + c / 4096 % 64)
              (0x80 + c / 64 % 64) (0x80 + c % 64)) = true := by
          rw [hrune]
          exact ⟨he, hc⟩
        have ha : ¬ (0xF0 + c / 262144 < 0x80) := by omega
        have hno2 : ¬ (encodeUTF8 (rune2 (0xF0 + c / 262144) (0x80 + c / 4096 % 64)) =
            [0xF0 + c / 262144, 0x80 + c / 4096 % 64] ∧
            isValidScalar (rune2 (0xF0 + c / 262144) (0x80 + c / 4096 % 64)) = true) := by
          rw [spec2_iff]
          omega
        have hno3 : ¬ (encodeUTF8 (rune3 (0xF0 + c / 262144) (0x80 + c / 4096 % 64)
              (0x80 + c / 64 % 64)) = [0xF0 + c / 262144, 0x80 + c / 4096 % 64,
              0x80 + c / 64 % 64] ∧
            isValidScalar (rune3 (0xF0 + c / 262144) (0x80 + c / 4096 % 64)
              (0x80 + c / 64 % 64)) = true) := by
          rw [spec3_iff]
          omega
        rw [he]
        simp only [List.cons_append, List.nil_append, List.append_eq, specDecodeF, ha, if_false]
        rw [if_neg hno2, if_neg hno3, if_pos hcond, hrune]

theorem parseJSONString_quote (rest : Bytes) :
    parseJSONString (0x22 :: rest) = parseChrs rest := rfl

theorem decodeGo_valid (s : Bytes) : ∀ c ∈ decodeGo s, isValidScalar c = true := by
  rw [decodeGo_eq_specDecode]
  exact fun c hc => specDecodeF_valid s.length s c hc

theorem parseJSONString_appendString (s : Bytes) :
    parseJSONString (appendString s) = some ((decodeGo s).flatMap encodeUTF8) := by
  have hmain := parseChrsF_escapes (decodeGo s) (decodeGo_valid s) [0x22] [] 2 rfl
  have hlen : ((decodeGo s).flatMap escapeRune ++ [0x22]).length + 1 =
      2 + ((decodeGo s).flatMap escapeRune).length := by
    simp [List.length_append]
    omega
  show parseChrs (appendRawString s ++ [0x22]) = _
  unfold parseChrs appendRawString
  rw [hlen, hmain]
  simp

theorem encodeUTF8_length_pos (c : Nat) : 0 < (encodeUTF8 c).length := by
  unfold encodeUTF8
  split_ifs <;> simp

theorem flatMap_encodeUTF8_length (cs : List Nat) :
    cs.length ≤ (cs.flatMap encodeUTF8).length := by
  induction cs with
  | nil => simp
  | cons c cs' ih =>
    simp only [List.flatMap_cons, List.length_append, List.length_cons]
    have := encodeUTF8_length_pos c
    omega

theorem specDecodeF_flat (cs : List Nat) :
    ∀ fuel, (∀ c ∈ cs, isValidScalar c = true) → cs.length ≤ fuel →
      specDecodeF fuel (cs.flatMap encodeUTF8) = cs := by
  induction cs with
  | nil => intro fuel _ _; simpa using specDecodeF_nil fuel
  | cons c cs' ih =>
    intro fuel hv hf
    cases fuel with
    | zero => simp at hf
    | succ f =>
      have hv' : ∀ d ∈ cs', isValidScalar d = true :=
        fun d hd => hv d (List.mem_cons_of_mem c hd)
      have hf2 : cs'.length + 1 ≤ f + 1 := by simpa using hf
      rw [List.flatMap_cons,
        specDecodeF_encode c _ f (hv c (List.mem_cons_self c cs')),
        ih f hv' (Nat.le_of_succ_le_succ hf2)]

/-- C4: the quoted fragment produced by `appendString` always parses as a
JSON string, but a standards-compliant parse recovers the UTF-8
re-encoding of the replacement-decoded runes, so the exact round-trip
`decode (encode s) = s` holds when `s` is well-formed UTF-8 — not for
every byte sequence, as the claim states. -/
theorem c4_parse_roundtrip (s : Bytes) :
    (parseJSONString (appendString s)).isSome = true ∧
    parseJSONString (appendString s) = some ((decodeGo s).flatMap encodeUTF8) ∧
    (ValidUTF8 s → parseJSONString (appendString s) = some s) := by
  refine ⟨?_, parseJSONString_appendString s, ?_⟩
  · rw [parseJSONString_appendString s]
    rfl
  · rintro ⟨cs, hv, rfl⟩
    rw [parseJSONString_appendString]
    rw [decodeGo_eq_specDecode]
    unfold specDecode
    rw [specDecodeF_flat cs (cs.flatMap encodeUTF8).length hv
      (flatMap_encodeUTF8_length cs)]

/-- C4 counterexample: the single malformed byte 0x80 is encoded as the
quoted replacement character, so a compliant parse returns U+FFFD's
UTF-8 bytes, not the original input: `decode (encode s) ≠ s`. -/
theorem c4_malformed_byte_not_roundtrip :
    parseJSONString (appendString [0x80]) = some [0xEF, 0xBF, 0xBD] ∧
    parseJSONString (appendString [0x80]) ≠ some [0x80] := by
  decide

theorem natDecimal_ne_nil (n : Nat) : natDecimal n ≠ [] := by
  unfold natDecimal natDecimalAux
  split_ifs <;> simp

theorem formatFixed_ne_nil (d : Nat) (k : Int) : formatFixed d k ≠ [] := by
  simp only [formatFixed]
  split_ifs <;> simp [natDecimal_ne_nil]

theorem formatExp_ne_nil (d : Nat) (k : Int) : formatExp d k ≠ [] := by
  simp only [formatExp, formatExpPart]
  split_ifs <;> simp

theorem stripExpZero_ne_nil (b : Bytes) (h : b ≠ []) : stripExpZero b ≠ [] := by
  simp only [stripExpZero]
  split_ifs with hc
  · simp
  · exact h

theorem renderFinite_ne_nil (f : FloatFmt) (bits : Nat) (useExp : Bool) :
    renderFinite f bits useExp ≠ [] := by
  unfold renderFinite
  split_ifs with h1 h2
  · simp
  · exact stripExpZero_ne_nil _ (formatExp_ne_nil _ _)
  · exact formatFixed_ne_nil _ _

/-- C7: rendering a 64-bit or 32-bit float fails — with the
"unsupported value" error — exactly when the bit pattern is infinite or
not-a-number; every finite pattern renders successfully to nonempty
output. -/
theorem c7_float_error_iff_nonfinite (bits : Nat) :
    ((isInfb f64fmt bits || isNaNb f64fmt bits) = true →
      appendFloat64 bits = Except.error errUnsupported) ∧
    ((isInfb f64fmt bits || isNaNb f64fmt bits) = false →
      ∃ out, appendFloat64 bits = Except.ok out ∧ out ≠ []) ∧
    ((isInfb f32fmt bits || isNaNb f32fmt bits) = true →
      appendFloat32 bits = Except.error errUnsupported) ∧
    ((isInfb f32fmt bits || isNaNb f32fmt bits) = false →
      ∃ out, appendFloat32 bits = Except.ok out ∧ out ≠ []) := by
  refine ⟨?_, ?_, ?_, ?_⟩ <;> intro h
  · simp [appendFloat64, appendFloatW, h]
  · simp only [appendFloat64, appendFloatW, h, Bool.false_eq_true, if_false]
    refine ⟨_, rfl, ?_⟩
    split_ifs
    · simp
    · exact renderFinite_ne_nil _ _ _
  · simp [appendFloat32, appendFloatW, h]
  · simp only [appendFloat32, appendFloatW, h, Bool.false_eq_true, if_false]
    refine ⟨_, rfl, ?_⟩
    split_ifs
    · simp
    · exact renderFinite_ne_nil _ _ _

theorem stripExpZero_append4 (xs : Bytes) (s z w : Nat) :
    stripExpZero (xs ++ [0x65, s, z, w]) =
      if s = 0x2D ∧ z = 0x30 then xs ++ [0x65, s, w] else xs ++ [0x65, s, z, w] := by
  simp only [stripExpZero]
  have hn : (xs ++ [0x65, s, z, w]).length = xs.length + 4 := by simp
  rw [hn]
  have h4 : xs.length + 4 - 4 = xs.length + 0 := by omega
  have h3 : xs.length + 4 - 3 = xs.length + 1 := by omega
  have h2 : xs.length + 4 - 2 = xs.length + 2 := by omega
  have h1 : xs.length + 4 - 1 = xs.length + 3 := by omega
  have g0 : (xs ++ [0x65, s, z, w]).getD (xs.length + 0) 0 = 0x65 := by
    rw [List.getD_append_right] <;> simp
  have g1 : (xs ++ [0x65, s, z, w]).getD (xs.length + 1) 0 = s := by
    rw [List.getD_append_right] <;> simp
  have g2 : (xs ++ [0x65, s, z, w]).getD (xs.length + 2) 0 = z := by
    rw [List.getD_append_right] <;> simp
  have g3 : (xs ++ [0x65, s, z, w]).getD (xs.length + 3) 0 = w := by
    rw [List.getD_append_right] <;> simp
  have ht : (xs ++ [0x65, s, z, w]).take (xs.length + 2) = xs ++ [0x65, s] := by
    rw [List.take_append]
    rfl
  rw [h4, h3, h2, h1, g0, g1, g2, g3, ht]
  split_ifs with hc1 hc2 hc2
  · simp
  · exact absurd ⟨hc1.2.2.1, hc1.2.2.2⟩ hc2
  · exact absurd ⟨by omega, rfl, hc2.1, hc2.2⟩ hc1
  · rfl

theorem natDecimal_lt10 (n : Nat) (h : n < 10) : natDecimal n = [0x30 + n] := by
  unfold natDecimal natDecimalAux
  rw [if_pos h]

/-- The strip applied to the exponential form: a padded negative exponent
loses its zero; a padded positive exponent keeps it. -/
theorem formatExp_strip_cases (d : Nat) (k : Int) :
    (-9 ≤ k + ((natDecimal d).length : Int) - 1 ∧ k + ((natDecimal d).length : Int) - 1 ≤ -1 →
      stripExpZero (formatExp d k) =
        (if (natDecimal d).length = 1 then natDecimal d
          else (natDecimal d).take 1 ++ 0x2E :: (natDecimal d).drop 1) ++
          [0x65, 0x2D, 0x30 + (k + ((natDecimal d).length : Int) - 1).natAbs]) ∧
    (0 ≤ k + ((natDecimal d).length : Int) - 1 ∧ k + ((natDecimal d).length : Int) - 1 ≤ 9 →
      stripExpZero (formatExp d k) =
        (if (natDecimal d).length = 1 then natDecimal d
          else (natDecimal d).take 1 ++ 0x2E :: (natDecimal d).drop 1) ++
          [0x65, 0x2B, 0x30, 0x30 + (k + ((natDecimal d).length : Int) - 1).natAbs]) := by
  constructor
  · rintro ⟨hA1, hA2⟩
    have hex : k + ((natDecimal d).length : Int) - 1 < 0 := by omega
    have hmag : natDecimal (k + ((natDecimal d).length : Int) - 1).natAbs =
        [0x30 + (k + ((natDecimal d).length : Int) - 1).natAbs] :=
      natDecimal_lt10 _ (by omega)
    simp only [formatExp, formatExpPart, hmag, List.length_singleton]
    rw [if_pos hex, if_pos (show (1:Nat) < 2 by decide)]
    rw [stripExpZero_append4, if_pos ⟨rfl, rfl⟩]
  · rintro ⟨hB1, hB2⟩
    have hex : ¬ (k + ((natDecimal d).length : Int) - 1 < 0) := by omega
    have hmag : natDecimal (k + ((natDecimal d).length : Int) - 1).natAbs =
        [0x30 + (k + ((natDecimal d).length : Int) - 1).natAbs] :=
      natDecimal_lt10 _ (by omega)
    simp only [formatExp, formatExpPart, hmag, List.length_singleton]
    rw [if_neg hex, if_pos (show (1:Nat) < 2 by decide)]
    rw [stripExpZero_append4,
      if_neg (show ¬((0x2B:Nat) = 0x2D ∧ (0x30:Nat) = 0x30) by decide)]

theorem absQ_eq_zero_iff (f : FloatFmt) (bits : Nat) :
    absQ f bits = 0 ↔ mantVal f bits = 0 := by
  unfold absQ
  constructor
  · intro h
    rcases mul_eq_zero.mp h with h | h
    · exact_mod_cast h
    · exact absurd h (zpow_ne_zero _ (by norm_num))
  · intro h
    rw [h]
    simp

/-- The code's negated exponential-format condition is the spec's
positive fixed-point condition. -/
theorem fixedSelection_iff (f : FloatFmt) (litLo litHi : ℚ) (bits : Nat) :
    (decide (mantVal f bits ≠ 0 ∧ (absQ f bits < litLo ∨ litHi ≤ absQ f bits)) = false) ↔
      (absQ f bits = 0 ∨ (litLo ≤ absQ f bits ∧ absQ f bits < litHi)) := by
  rw [decide_eq_false_iff_not]
  have habs := absQ_eq_zero_iff f bits
  constructor
  · intro h
    by_cases hm : mantVal f bits = 0
    · exact Or.inl (habs.mpr hm)
    · push_neg at h
      rcases h hm with ⟨h1, h2⟩
      exact Or.inr ⟨h1, h2⟩
  · rintro (h0 | ⟨h1, h2⟩) ⟨hm, hior⟩
    · exact hm (habs.mp h0)
    · rcases hior with hlt | hge
      · exact absurd h1 (not_le.mpr hlt)
      · exact absurd hge (not_le.mpr h2)

/-- C8: what holds of the claim against the code: the fixed/exponential
choice is exactly the spec's (fixed when the absolute value is zero or
in `[1e-6, 1e21)`); the exponent suffix always carries a sign; a single
leading zero is stripped from a two-digit exponent magnitude when the
exponent is negative (`e-09` → `e-9`); but for a positive exponent the
cleanup does not apply (the sign test demands `-`), so `e+09` would be
emitted unchanged, against the claim's "likewise normalized". -/
theorem c8_notation_selection_and_exponent_cleanup :
    (∀ bits : Nat,
      decide (mantVal f64fmt bits ≠ 0 ∧ (absQ f64fmt bits < lit64em6 ∨
          lit64e21 ≤ absQ f64fmt bits)) = false ↔
        (absQ f64fmt bits = 0 ∨
          (lit64em6 ≤ absQ f64fmt bits ∧ absQ f64fmt bits < lit64e21))) ∧
    (∀ bits : Nat,
      decide (mantVal f32fmt bits ≠ 0 ∧ (absQ f32fmt bits < lit32em6 ∨
          lit32e21 ≤ absQ f32fmt bits)) = false ↔
        (absQ f32fmt bits = 0 ∨
          (lit32em6 ≤ absQ f32fmt bits ∧ absQ f32fmt bits < lit32e21))) ∧
    (∀ (d : Nat) (k : Int),
      -9 ≤ k + ((natDecimal d).length : Int) - 1 ∧ k + ((natDecimal d).length : Int) - 1 ≤ -1 →
        stripExpZero (formatExp d k) =
          (if (natDecimal d).length = 1 then natDecimal d
            else (natDecimal d).take 1 ++ 0x2E :: (natDecimal d).drop 1) ++
            [0x65, 0x2D, 0x30 + (k + ((natDecimal d).length : Int) - 1).natAbs]) ∧
    (∀ (d : Nat) (k : Int),
      0 ≤ k + ((natDecimal d).length : Int) - 1 ∧ k + ((natDecimal d).length : Int) - 1 ≤ 9 →
        stripExpZero (formatExp d k) =
          (if (natDecimal d).length = 1 then natDecimal d
            else (natDecimal d).take 1 ++ 0x2E :: (natDecimal d).drop 1) ++
            [0x65, 0x2B, 0x30, 0x30 + (k + ((natDecimal d).length : Int) - 1).natAbs]) :=
  ⟨fun bits => fixedSelection_iff f64fmt lit64em6 lit64e21 bits,
   fun bits => fixedSelection_iff f32fmt lit32em6 lit32e21 bits,
   fun d k => (formatExp_strip_cases d k).1,
   fun d k => (formatExp_strip_cases d k).2⟩

/-- C8 counterexample: the cleanup leaves a hypothetical `e+09` suffix
untouched (the code tests for a `-` sign byte), while `e-09` is indeed
stripped — the claimed normalization of positive exponents does not
exist in the code. -/
theorem c8_positive_exponent_zero_kept :
    stripExpZero (formatExp 1 9) = asciiB "1e+09" ∧
    stripExpZero (formatExp 1 9) ≠ asciiB "1e+9" ∧
    stripExpZero (formatExp 1 (-9)) = asciiB "1e-9" := by
  decide

end Ctxlog
